import Mathlib

/-!
Verification of the node/content store of the DnD Notes Vault
(js/core/store.js together with the IndexedDB wrapper js/core/db.js).

The store keeps a flat insertion-ordered map of nodes (modelled as a list
of records, JavaScript Map semantics: set replaces in place or appends,
delete filters), a list of root ids, a selection, and mirrors every
mutation into durable storage (dbNodes / dbContents).  Unbounded
JavaScript recursions (isDescendant, getNodePath, deleteNode) are
embedded with an explicit fuel parameter; a result of none means the
recursion did not finish within the given fuel.
-/

inductive NodeType where
  | folder
  | leaf
deriving DecidableEq

structure NodeRec where
  id : Nat
  parentId : Option Nat
  ntype : NodeType
  name : String
  orderIndex : Nat
  active : Bool
  createdAt : Nat
  updatedAt : Nat
deriving DecidableEq

structure ContentRec where
  nodeId : Nat
  icon : String
  markdown : String
  fields : List (String × String)
  tags : List String
  links : List Nat
  updatedAt : Nat
deriving DecidableEq

/-- JavaScript Map.get on the node map (keyed by id). -/
def mapGet (m : List NodeRec) (a : Nat) : Option NodeRec :=
  m.find? (fun x => x.id == a)

/-- JavaScript Map.set: replace in place if the key exists, else append. -/
def mapSet (m : List NodeRec) (n : NodeRec) : List NodeRec :=
  if (m.find? (fun x => x.id == n.id)).isSome then
    m.map (fun x => if x.id = n.id then n else x)
  else m ++ [n]

/-- JavaScript Map.delete. -/
def mapDelete (m : List NodeRec) (a : Nat) : List NodeRec :=
  m.filter (fun x => x.id != a)

def contentGet (l : List ContentRec) (a : Nat) : Option ContentRec :=
  l.find? (fun c => c.nodeId == a)

def contentSet (l : List ContentRec) (c : ContentRec) : List ContentRec :=
  if (l.find? (fun x => x.nodeId == c.nodeId)).isSome then
    l.map (fun x => if x.nodeId = c.nodeId then c else x)
  else l ++ [c]

def contentDelete (l : List ContentRec) (a : Nat) : List ContentRec :=
  l.filter (fun x => x.nodeId != a)

/--
In-memory state of the Store singleton together with the durable
IndexedDB stores it persists into (dbNodes keyed by id, dbContents keyed
by nodeId).  The search index is derived (rebuilt wholesale from nodes),
so it is recomputed on demand rather than stored.
-/
structure StoreState where
  nodes : List NodeRec
  rootNodes : List Nat
  expandedNodes : List Nat
  selectedNodeId : Option Nat
  currentContent : Option ContentRec
  dbNodes : List NodeRec
  dbContents : List ContentRec
deriving DecidableEq

/-- Store.getNode. -/
def getNode (s : StoreState) (a : Nat) : Option NodeRec :=
  mapGet s.nodes a

/-- Stable ascending insertion by a Nat key: the new element goes after
every strictly smaller key and before equal keys met later. -/
def insertByKey {α : Type} (key : α → Nat) (a : α) : List α → List α
  | [] => [a]
  | b :: bs => if key b < key a then b :: insertByKey key a bs else a :: b :: bs

/-- Stable ascending sort by a Nat key.  JavaScript Array.prototype.sort
with the comparator (x, y) => key(x) - key(y) is exactly the stable sort
by that key, which this computes. -/
def sortByKey {α : Type} (key : α → Nat) : List α → List α
  | [] => []
  | a :: as => insertByKey key a (sortByKey key as)

def insertByKeyDesc {α : Type} (key : α → Nat) (a : α) : List α → List α
  | [] => [a]
  | b :: bs => if key a < key b then b :: insertByKeyDesc key a bs else a :: b :: bs

/-- Stable descending sort by a Nat key (comparator (x, y) => key(y) - key(x)). -/
def sortByKeyDesc {α : Type} (key : α → Nat) : List α → List α
  | [] => []
  | a :: as => insertByKeyDesc key a (sortByKeyDesc key as)

/-- Store.getChildren: filter by parentId, then stable sort by orderIndex
(JavaScript Array.prototype.sort is stable). -/
def getChildren (m : List NodeRec) (parentId : Option Nat) : List NodeRec :=
  sortByKey (fun n => n.orderIndex) (m.filter (fun n => n.parentId == parentId))

/-- One upward step of the parentId traversal: the parent id recorded at
node a, when a is present in the map. -/
def pnext (m : List NodeRec) (a : Nat) : Option Nat :=
  (mapGet m a).bind (fun n => n.parentId)

/-- k-fold iteration of pnext (the deterministic ancestor walk). -/
def pIter (m : List NodeRec) : Nat → Nat → Option Nat
  | 0, a => some a
  | k + 1, a => (pnext m a).bind (pIter m k)

/-- No node is reachable from itself by repeated parentId traversal. -/
def Acyclic (m : List NodeRec) : Prop :=
  ∀ a k, 0 < k → pIter m k a ≠ some a

/-- All node ids in the map are distinct. -/
def NodupIds (m : List NodeRec) : Prop :=
  (m.map (fun n => n.id)).Nodup

instance (m : List NodeRec) : Decidable (NodupIds m) := by
  unfold NodupIds
  infer_instance

/-- A decidable certificate for acyclicity: a rank function that strictly
decreases along every recorded parent link. -/
def rankOkB (m : List NodeRec) (rank : Nat → Nat) : Bool :=
  m.all (fun n =>
    match n.parentId with
    | none => true
    | some p => decide (rank p < rank n.id))

/-- Store.isDescendant with explicit fuel: none models the unbounded
JavaScript recursion failing to finish within the fuel. -/
def isDescT (m : List NodeRec) : Nat → Option Nat → Nat → Option Bool
  | 0, _, _ => none
  | fuel + 1, pd, anc =>
    if pd = some anc then some true
    else
      match pd with
      | none => some false
      | some p =>
        match mapGet m p with
        | none => some false
        | some n => isDescT m fuel n.parentId anc

/-- Store.isDescendant as run by the store; on an acyclic map the fuel
m.length + 1 always suffices (proved below). -/
def isDescB (m : List NodeRec) (pd : Option Nat) (anc : Nat) : Bool :=
  (isDescT m (m.length + 1) pd anc).getD false

/-- Store.getNodePath with explicit fuel: the while loop prepending each
node while walking parentId links. -/
def pathT (m : List NodeRec) : Nat → Option NodeRec → Option (List NodeRec)
  | _, none => some []
  | 0, some _ => none
  | fuel + 1, some n =>
    (pathT m fuel (n.parentId.bind (fun p => mapGet m p))).map (fun l => l ++ [n])

/-- Store.getNodePath as run by the store. -/
def getNodePathB (m : List NodeRec) (a : Nat) : List NodeRec :=
  (pathT m (m.length + 1) (mapGet m a)).getD []

/-- An entry of the in-memory search index. -/
structure IndexEntry where
  id : Nat
  name : String
  ntype : NodeType
  path : String
deriving DecidableEq

/-- JavaScript String.prototype.toLowerCase restricted to ASCII (all
characters exercised by the store's data are ASCII). -/
def lowerChar (c : Char) : Char :=
  if 65 ≤ c.toNat ∧ c.toNat ≤ 90 then Char.ofNat (c.toNat + 32) else c

def strLower (s : String) : String :=
  ⟨s.data.map lowerChar⟩

/-- JavaScript String.prototype.startsWith. -/
def strStarts (s pat : String) : Bool :=
  pat.data.isPrefixOf s.data

def listHasSub (pat : List Char) : List Char → Bool
  | [] => pat.isEmpty
  | c :: rest => pat.isPrefixOf (c :: rest) || listHasSub pat rest

/-- JavaScript String.prototype.includes. -/
def strIncludes (s pat : String) : Bool :=
  listHasSub pat.data s.data

/-- JavaScript String.prototype.trim. -/
def strTrim (s : String) : String :=
  ⟨((s.data.dropWhile Char.isWhitespace).reverse.dropWhile Char.isWhitespace).reverse⟩

/-- Array.prototype.join with a separator. -/
def joinSep (sep : String) : List String → String
  | [] => ""
  | [x] => x
  | x :: y :: xs => x ++ sep ++ joinSep sep (y :: xs)

/-- Store.buildSearchIndex: lowercased name and lowercased path string
(path names joined by " > ", including the node itself). -/
def buildSearchIndex (m : List NodeRec) : List IndexEntry :=
  m.map (fun n =>
    { id := n.id
      name := strLower n.name
      ntype := n.ntype
      path := strLower (joinSep " > " ((getNodePathB m n.id).map (fun x => x.name))) })

/-- Store.calculateSearchScore. -/
def calculateSearchScore (query : String) (e : IndexEntry) : Nat :=
  (if e.name = query then 100
   else if strStarts e.name query then 50
   else if strIncludes e.name query then 20
   else 0)
  + (if strIncludes e.path query then 10 else 0)

structure SearchResult where
  node : NodeRec
  score : Nat
  path : List NodeRec
deriving DecidableEq

/-- The scored results before sorting and truncation (the results array
built by Store.search). -/
def searchHits (s : StoreState) (lowerQuery : String) : List SearchResult :=
  (buildSearchIndex s.nodes).filterMap (fun e =>
    if 0 < calculateSearchScore lowerQuery e then
      match mapGet s.nodes e.id with
      | some node =>
          some { node := node, score := calculateSearchScore lowerQuery e
                 path := getNodePathB s.nodes e.id }
      | none => none
    else none)

/-- Store.search: empty-after-trim query short-circuits to []; otherwise
the scores are computed against the lowercased (but untrimmed) query,
sorted descending by score (stable) and truncated to limit. -/
def search (s : StoreState) (query : String) (limit : Nat) : List SearchResult :=
  if strTrim query = "" then []
  else
    (sortByKeyDesc (fun r => r.score) (searchHits s (strLower query))).take limit

/-- Database.getDefaultContent. -/
def getDefaultContent (nodeId now : Nat) : ContentRec :=
  { nodeId := nodeId, markdown := "", fields := [], tags := [], links := []
    icon := "📄", updatedAt := now }

/-- Store.getDefaultIcon. -/
def getDefaultIcon : Option String → String
  | some "npc" => "👤"
  | some "location" => "🏰"
  | some "item" => "🗡️"
  | some "quest" => "📜"
  | some "monster" => "🐉"
  | some "faction" => "⚔️"
  | _ => "📄"

/-- Store.getTemplateFields (field values elided to the empty or seeded
strings exactly as in the source). -/
def getTemplateFields : Option String → List (String × String)
  | some "npc" =>
      [("Role", ""), ("Species", ""), ("Alignment", ""), ("Age", ""),
       ("Personality", ""), ("Appearance", ""), ("Motivations", ""), ("Secrets", "")]
  | some "location" =>
      [("Type", ""), ("Region", ""), ("Climate", ""), ("Population", ""),
       ("Ruler", ""), ("Notable Features", "")]
  | some "item" =>
      [("Type", ""), ("Rarity", ""), ("Attunement", ""), ("Value", ""),
       ("Weight", ""), ("Properties", "")]
  | some "quest" =>
      [("Status", "Active"), ("Level", ""), ("Giver", ""), ("Reward", ""),
       ("Location", ""), ("Objective", "")]
  | some "monster" =>
      [("CR", ""), ("AC", ""), ("HP", ""), ("Speed", ""),
       ("Abilities", ""), ("Weaknesses", ""), ("Resistances", "")]
  | some "faction" =>
      [("Type", ""), ("Alignment", ""), ("Leader", ""), ("Headquarters", ""),
       ("Goals", ""), ("Notable Members", "")]
  | _ => []

structure CreateArgs where
  name : String
  ntype : NodeType
  parentId : Option Nat := none
  template : Option String := none
  icon : Option String := none
  active : Bool := false

/-- Store.createNode.  The generated id and Date.now() are inputs of the
embedding.  Returns the created node together with the new state. -/
def createNode (s : StoreState) (args : CreateArgs) (newId now : Nat) :
    NodeRec × StoreState :=
  let siblings := getChildren s.nodes args.parentId
  let node : NodeRec :=
    { id := newId, parentId := args.parentId, ntype := args.ntype
      name := args.name, orderIndex := siblings.length, active := args.active
      createdAt := now, updatedAt := now }
  let content :=
    { getDefaultContent newId now with
        icon := args.icon.getD (getDefaultIcon args.template)
        fields := match args.template with
                  | some t => getTemplateFields (some t)
                  | none => (getDefaultContent newId now).fields }
  (node,
   { s with
       dbNodes := mapSet s.dbNodes node
       nodes := mapSet s.nodes node
       rootNodes :=
         if args.parentId = none then s.rootNodes ++ [newId] else s.rootNodes
       dbContents :=
         if args.ntype = NodeType.leaf then contentSet s.dbContents content
         else s.dbContents })

/-- The partial field update passed to Store.updateNode (only the fields
the application ever updates on a node). -/
structure NodeUpdates where
  parentId : Option (Option Nat) := none
  name : Option String := none
  orderIndex : Option Nat := none
  active : Option Bool := none

def applyUpdates (n : NodeRec) (u : NodeUpdates) (now : Nat) : NodeRec :=
  { n with
      parentId := u.parentId.getD n.parentId
      name := u.name.getD n.name
      orderIndex := u.orderIndex.getD n.orderIndex
      active := u.active.getD n.active
      updatedAt := now }

/-- Store.updateNode: null together with an unchanged state when the id
is unknown, otherwise the merged node is persisted and set. -/
def updateNode (s : StoreState) (a : Nat) (u : NodeUpdates) (now : Nat) :
    Option NodeRec × StoreState :=
  match mapGet s.nodes a with
  | none => (none, s)
  | some n =>
    let upd := applyUpdates n u now
    (some upd, { s with dbNodes := mapSet s.dbNodes upd, nodes := mapSet s.nodes upd })

/-- Tail of Store.deleteNode after the recursive child deletion:
db.deleteNode (atomic removal of the node and its content), in-memory
delete, rootNodes and selection fixup. -/
def deleteFinish (s : StoreState) (node : NodeRec) : StoreState :=
  { s with
      dbNodes := mapDelete s.dbNodes node.id
      dbContents := contentDelete s.dbContents node.id
      nodes := mapDelete s.nodes node.id
      rootNodes :=
        if node.parentId = none then s.rootNodes.filter (fun i => i != node.id)
        else s.rootNodes
      selectedNodeId :=
        if s.selectedNodeId = some node.id then none else s.selectedNodeId
      currentContent :=
        if s.selectedNodeId = some node.id then none else s.currentContent }

/-- Sequential state-threading fold over a list of ids with an Option
valued step (used for the recursive child deletion of Store.deleteNode). -/
def optFold (g : StoreState → Nat → Option StoreState) :
    StoreState → List Nat → Option StoreState
  | s, [] => some s
  | s, c :: cs =>
    match g s c with
    | none => none
    | some s' => optFold g s' cs

/-- Store.deleteNode with fuel: no-op on an unknown id, otherwise delete
the children recursively (in getChildren order) and finish. -/
def deleteNodeF : Nat → StoreState → Nat → Option StoreState
  | 0, _, _ => none
  | fuel + 1, s, a =>
    match mapGet s.nodes a with
    | none => some s
    | some node =>
      match optFold (deleteNodeF fuel) s ((getChildren s.nodes (some a)).map (fun n => n.id)) with
      | none => none
      | some s1 => some (deleteFinish s1 node)

/-- Sort key used when Store re-sorts rootNodes by orderIndex. -/
def rootKey (m : List NodeRec) (a : Nat) : Nat :=
  ((mapGet m a).map (fun n => n.orderIndex)).getD 0

inductive MoveResult where
  | noNode : StoreState → MoveResult
  | cycleError : StoreState → MoveResult
  | moved : StoreState → MoveResult
deriving DecidableEq

def MoveResult.state : MoveResult → StoreState
  | .noNode s => s
  | .cycleError s => s
  | .moved s => s

/-- Store.moveNode: no-op on unknown id; throws (cycleError, before any
mutation) when newParentId is the node or one of its descendants;
otherwise appends under the new parent at orderIndex = sibling count and
fixes up rootNodes membership. -/
def moveNode (s : StoreState) (nodeId : Nat) (newParentId : Option Nat) (now : Nat) :
    MoveResult :=
  match mapGet s.nodes nodeId with
  | none => .noNode s
  | some node =>
    if isDescB s.nodes newParentId nodeId then .cycleError s
    else
      let siblings := getChildren s.nodes newParentId
      let updated : NodeRec :=
        { node with parentId := newParentId, orderIndex := siblings.length, updatedAt := now }
      let nodes1 := mapSet s.nodes updated
      let db1 := mapSet s.dbNodes updated
      let roots1 :=
        if node.parentId = none then s.rootNodes.filter (fun i => i != nodeId)
        else s.rootNodes
      let roots2 :=
        if newParentId = none then
          sortByKey (rootKey nodes1) (roots1 ++ [nodeId])
        else roots1
      .moved { s with nodes := nodes1, dbNodes := db1, rootNodes := roots2 }

/-- One step of the renumber loop of Store.reorderNode: position i gets
orderIndex i, persisted only when it actually changed. -/
def renumberStep (now : Nat) (s : StoreState) (p : Nat × NodeRec) : StoreState :=
  if p.2.orderIndex = p.1 then s
  else
    let sib := { p.2 with orderIndex := p.1, updatedAt := now }
    { s with nodes := mapSet s.nodes sib, dbNodes := mapSet s.dbNodes sib }

/-- Store.reorderNode: splice the node from its old position into the new
one inside its sorted sibling list, then renumber every sibling to its
position. -/
def reorderNode (s : StoreState) (nodeId : Nat) (newIndex : Nat) (now : Nat) : StoreState :=
  match mapGet s.nodes nodeId with
  | none => s
  | some node =>
    let siblings := getChildren s.nodes node.parentId
    match siblings.findIdx? (fun n => n.id == nodeId) with
    | none => s
    | some oldIndex =>
      if oldIndex = newIndex then s
      else
        let removed := siblings.eraseIdx oldIndex
        let arranged := removed.take newIndex ++ [node] ++ removed.drop newIndex
        arranged.enum.foldl (renumberStep now) s

/-- The export snapshot (Database.exportAll): version, date and the raw
contents of both stores. -/
structure Snapshot where
  version : Nat
  exportDate : String
  nodes : List NodeRec
  contents : List ContentRec
deriving DecidableEq

/-- Store.exportVault / Database.exportAll. -/
def exportVault (s : StoreState) (dateStr : String) : Snapshot :=
  { version := 2, exportDate := dateStr, nodes := s.dbNodes, contents := s.dbContents }

/-- Database.importAll: clear both stores, then put every record of the
snapshot. -/
def importAll (s : StoreState) (data : Snapshot) : StoreState :=
  { s with
      dbNodes := data.nodes.foldl (fun acc n => mapSet acc n) []
      dbContents := data.contents.foldl (fun acc c => contentSet acc c) [] }

/-- Store.loadNodes: refill the in-memory map from the database, rebuild
rootNodes (filter parentId == null, sort by orderIndex). -/
def loadNodes (s : StoreState) : StoreState :=
  let nodes := s.dbNodes
  let roots := (nodes.filter (fun n => n.parentId == none)).map (fun n => n.id)
  { s with
      nodes := nodes
      rootNodes := sortByKey (rootKey nodes) roots }

/-- Store.importVault: importAll, reload, clear selection and expansion. -/
def importVault (s : StoreState) (data : Snapshot) : StoreState :=
  let s1 := loadNodes (importAll s data)
  { s1 with selectedNodeId := none, currentContent := none, expandedNodes := [] }

/-- A moveNode invocation: node id, new parent id, Date.now(). -/
def applyMoves (s : StoreState) : List (Nat × Option Nat × Nat) → StoreState
  | [] => s
  | (nid, np, now) :: rest => applyMoves (moveNode s nid np now).state rest

/-- Sibling orderIndex values form a permutation of 0..n-1 (the claimed
contiguity of a sibling group). -/
def Contiguous (m : List NodeRec) (pid : Option Nat) : Prop :=
  ((m.filter (fun n => n.parentId == pid)).map (fun n => n.orderIndex)).Perm
    (List.range (m.filter (fun n => n.parentId == pid)).length)

instance (m : List NodeRec) (pid : Option Nat) : Decidable (Contiguous m pid) := by
  unfold Contiguous
  infer_instance

/-- a is g itself or reaches g by repeated parentId traversal (the
subtree rooted at g, as far as the parent links record it). -/
def InSubtree (m : List NodeRec) (a g : Nat) : Prop :=
  a = g ∨ ∃ k, 0 < k ∧ pIter m k a = some g

/-- Modelled from the spec: the search the spec describes, which trims
and lowercases the query before matching (the source lowercases the
original, untrimmed query; see the search theorems). -/
def searchSpecTrimmed (s : StoreState) (query : String) (limit : Nat) : List SearchResult :=
  if strTrim query = "" then []
  else
    (sortByKeyDesc (fun r => r.score) (searchHits s (strLower (strTrim query)))).take limit

/-- The record moveNode writes for the moved node: new parent, appended
orderIndex, refreshed updatedAt. -/
def movedRec (nX : NodeRec) (Q : Option Nat) (oi now : Nat) : NodeRec :=
  { nX with parentId := Q, orderIndex := oi, updatedAt := now }

/-- The record position i of the reorder loop leaves behind: untouched
when the orderIndex already matches, else renumbered with a fresh
updatedAt. -/
def finalRec (now i : Nat) (sib : NodeRec) : NodeRec :=
  if sib.orderIndex = i then sib else { sib with orderIndex := i, updatedAt := now }

/-- All three record stores of t are sublists of those of s (deletion
only removes records; it never edits a surviving one). -/
def StoreSub (t s : StoreState) : Prop :=
  t.nodes.Sublist s.nodes ∧ t.dbNodes.Sublist s.dbNodes
    ∧ t.dbContents.Sublist s.dbContents

/-! ### Concrete fixtures used by witnesses and counterexamples -/

def mkNode (id : Nat) (parentId : Option Nat) (t : NodeType) (name : String) (oi : Nat) : NodeRec :=
  { id := id, parentId := parentId, ntype := t, name := name, orderIndex := oi
    active := false, createdAt := 0, updatedAt := 0 }

def mkStore (nodes : List NodeRec) : StoreState :=
  { nodes := nodes
    rootNodes := (nodes.filter (fun n => n.parentId == none)).map (fun n => n.id)
    expandedNodes := []
    selectedNodeId := none
    currentContent := none
    dbNodes := nodes
    dbContents := [] }

/-- Two root folders A and B. -/
def storeAB : StoreState :=
  mkStore [mkNode 1 none .folder "A" 0, mkNode 2 none .folder "B" 1]

/-- Folders P and Q at root; P has three children (the last is X), Q has
two children (the move-semantics example of the spec). -/
def storePQ : StoreState := mkStore
  [ mkNode 1 none .folder "P" 0, mkNode 2 none .folder "Q" 1
  , mkNode 3 (some 1) .leaf "c1" 0, mkNode 4 (some 1) .leaf "c2" 1
  , mkNode 5 (some 1) .leaf "X" 2
  , mkNode 6 (some 2) .leaf "d1" 0, mkNode 7 (some 2) .leaf "d2" 1 ]

/-- Two root leaves (no folder anywhere). -/
def storeLL : StoreState :=
  mkStore [mkNode 1 none .leaf "L" 0, mkNode 2 none .leaf "X" 1]

/-- The search example index: Grahda under NPCs > Trolls, Emerald Mire
under Locations > Swamps, plus a node Bog matching "em" only through its
path (under the folder Emerald Hollow). -/
def storeSearch : StoreState := mkStore
  [ mkNode 1 none .folder "NPCs" 0
  , mkNode 2 (some 1) .folder "Trolls" 0
  , mkNode 3 (some 2) .leaf "Grahda" 0
  , mkNode 4 none .folder "Locations" 1
  , mkNode 5 (some 4) .folder "Swamps" 0
  , mkNode 6 (some 5) .leaf "Emerald Mire" 0
  , mkNode 7 (some 5) .folder "Emerald Hollow" 1
  , mkNode 8 (some 7) .leaf "Bog" 0 ]

/-- A folder with a depth-3 subtree (1 -> 2 -> 3 -> 4, leaf 4 with a
Content record) next to an unrelated root 5 with child 6. -/
def storeTree : StoreState :=
  { mkStore
      [ mkNode 1 none .folder "F" 0
      , mkNode 2 (some 1) .folder "G" 0
      , mkNode 3 (some 2) .folder "H" 0
      , mkNode 4 (some 3) .leaf "L" 0
      , mkNode 5 none .folder "K" 1
      , mkNode 6 (some 5) .leaf "M" 0 ] with
    dbContents := [getDefaultContent 4 0, getDefaultContent 6 0] }

/-- The node id b is gone from all three record stores of t: the
in-memory map, the durable node store and the durable content store. -/
def DeadAll (t : StoreState) (b : Nat) : Prop :=
  mapGet t.nodes b = none ∧ mapGet t.dbNodes b = none
    ∧ contentGet t.dbContents b = none

/-- The state left by deleting folder 1 of storeTree (used as the
concrete instance of the cascade-delete theorem). -/
def sTreeDel : StoreState :=
  (deleteNodeF 5 storeTree 1).getD storeTree

/-! ### Basic lemmas about the map embedding -/

theorem mapGet_id {m : List NodeRec} {a : Nat} {n : NodeRec}
    (h : mapGet m a = some n) : n.id = a := by
  have h1 := List.find?_some h
  simpa using h1

theorem mapGet_mem {m : List NodeRec} {a : Nat} {n : NodeRec}
    (h : mapGet m a = some n) : n ∈ m :=
  List.mem_of_find?_eq_some h

theorem mapGet_eq_none_iff {m : List NodeRec} {a : Nat} :
    mapGet m a = none ↔ ∀ n ∈ m, n.id ≠ a := by
  simp [mapGet, List.find?_eq_none]

theorem mem_mapGet {m : List NodeRec} {n : NodeRec}
    (hmem : n ∈ m) (hnd : NodupIds m) : mapGet m n.id = some n := by
  induction m with
  | nil => cases hmem
  | cons x xs ih =>
    rcases List.mem_cons.mp hmem with h | h
    · subst h
      simp [mapGet, List.find?]
    · have hnd' : NodupIds xs := by
        have := hnd
        simp only [NodupIds, List.map_cons, List.nodup_cons] at this
        exact this.2
      have hne : x.id ≠ n.id := by
        have := hnd
        simp only [NodupIds, List.map_cons, List.nodup_cons] at this
        intro he
        exact this.1 (he ▸ List.mem_map_of_mem (fun y => y.id) h)
      have : mapGet xs n.id = some n := ih h hnd'
      simp only [mapGet, List.find?]
      rw [show (x.id == n.id) = false by simpa using hne]
      exact this

theorem mapGet_unique {m : List NodeRec} {a : Nat} {n b : NodeRec}
    (hnd : NodupIds m) (h : mapGet m a = some n) (hb : b ∈ m) (hid : b.id = a) :
    b = n := by
  have := mem_mapGet hb hnd
  rw [hid, h] at this
  exact (Option.some_injective _ this).symm

theorem mapGet_mapSet_self (m : List NodeRec) (n : NodeRec) :
    mapGet (mapSet m n) n.id = some n := by
  unfold mapSet
  split
  · rename_i hfound
    induction m with
    | nil => simp [mapGet] at hfound
    | cons x xs ih =>
      by_cases hx : x.id = n.id
      · simp [mapGet, List.find?, hx]
      · have hfound' : (List.find? (fun x => x.id == n.id) xs).isSome := by
          simp only [mapGet, List.find?] at hfound ⊢
          rwa [show (x.id == n.id) = false by simpa using hx] at hfound
        simp only [List.map_cons, mapGet, List.find?, if_neg hx]
        rw [show (x.id == n.id) = false by simpa using hx]
        exact ih hfound'
  · rename_i hnone
    have hnone' : List.find? (fun x => x.id == n.id) m = none := by
      cases h : List.find? (fun x => x.id == n.id) m with
      | none => rfl
      | some v => rw [h] at hnone; simp at hnone
    simp only [mapGet]
    rw [List.find?_append, hnone']
    simp [List.find?]

theorem find?_map_replace_ne (m : List NodeRec) (n : NodeRec) (a : Nat)
    (hne : a ≠ n.id) :
    List.find? (fun x => x.id == a) (m.map (fun x => if x.id = n.id then n else x))
      = List.find? (fun x => x.id == a) m := by
  induction m with
  | nil => simp
  | cons x xs ih =>
    by_cases hx : x.id = n.id
    · have hxa : (x.id == a) = false := by
        simp only [beq_eq_false_iff_ne, ne_eq]
        intro he; exact hne (he ▸ hx)
      have hna : (n.id == a) = false := by
        simp only [beq_eq_false_iff_ne, ne_eq]
        intro he; exact hne he.symm
      simp only [List.map_cons, List.find?, if_pos hx, hna, hxa]
      exact ih
    · simp only [List.map_cons, List.find?, if_neg hx]
      cases hxa : (x.id == a) with
      | true => rfl
      | false => exact ih

theorem mapGet_mapSet_ne {m : List NodeRec} {n : NodeRec} {a : Nat}
    (hne : a ≠ n.id) : mapGet (mapSet m n) a = mapGet m a := by
  unfold mapSet
  split
  · exact find?_map_replace_ne m n a hne
  · simp only [mapGet]
    rw [List.find?_append]
    have : List.find? (fun x => x.id == a) [n] = none := by
      simp [List.find?, show (n.id == a) = false by simpa using fun h => hne h.symm]
    rw [this]
    cases List.find? (fun x => x.id == a) m <;> rfl

theorem mapSet_fresh {m : List NodeRec} {n : NodeRec}
    (h : ∀ x ∈ m, x.id ≠ n.id) : mapSet m n = m ++ [n] := by
  unfold mapSet
  rw [if_neg]
  intro hsome
  rw [List.find?_eq_none.mpr (by intro x hx; simpa using h x hx)] at hsome
  simp at hsome

theorem mapGet_mapDelete (m : List NodeRec) (i a : Nat) :
    mapGet (mapDelete m i) a = if a = i then none else mapGet m a := by
  split
  · rename_i he
    subst he
    apply mapGet_eq_none_iff.mpr
    intro n hn
    have := List.mem_filter.mp hn
    simpa using this.2
  · rename_i hne
    induction m with
    | nil => simp [mapGet, mapDelete]
    | cons x xs ih =>
      by_cases hx : x.id = i
      · have hxa : (x.id == a) = false := by
          simp only [beq_eq_false_iff_ne, ne_eq]
          intro he; exact hne (he ▸ hx)
        simp only [mapDelete, List.filter, mapGet, List.find?]
        rw [show (x.id != i) = false by simp [hx], hxa]
        exact ih
      · simp only [mapDelete, List.filter, mapGet, List.find?]
        rw [show (x.id != i) = true by simp [hx]]
        simp only [List.find?]
        cases hxa : (x.id == a) with
        | true => rfl
        | false => exact ih

theorem mapDelete_sublist (m : List NodeRec) (i : Nat) :
    (mapDelete m i).Sublist m :=
  List.filter_sublist m

theorem contentGet_eq_none_iff {l : List ContentRec} {a : Nat} :
    contentGet l a = none ↔ ∀ c ∈ l, c.nodeId ≠ a := by
  simp [contentGet, List.find?_eq_none]

theorem contentGet_contentDelete (l : List ContentRec) (i a : Nat) :
    contentGet (contentDelete l i) a = if a = i then none else contentGet l a := by
  split
  · rename_i he
    subst he
    apply contentGet_eq_none_iff.mpr
    intro c hc
    have := List.mem_filter.mp hc
    simpa using this.2
  · rename_i hne
    induction l with
    | nil => simp [contentGet, contentDelete]
    | cons x xs ih =>
      by_cases hx : x.nodeId = i
      · have hxa : (x.nodeId == a) = false := by
          simp only [beq_eq_false_iff_ne, ne_eq]
          intro he; exact hne (he ▸ hx)
        simp only [contentDelete, List.filter, contentGet, List.find?]
        rw [show (x.nodeId != i) = false by simp [hx], hxa]
        exact ih
      · simp only [contentDelete, List.filter, contentGet, List.find?]
        rw [show (x.nodeId != i) = true by simp [hx]]
        simp only [List.find?]
        cases hxa : (x.nodeId == a) with
        | true => rfl
        | false => exact ih

theorem contentDelete_sublist (l : List ContentRec) (i : Nat) :
    (contentDelete l i).Sublist l :=
  List.filter_sublist l

theorem contentGet_mem {l : List ContentRec} {a : Nat} {c : ContentRec}
    (h : contentGet l a = some c) : c ∈ l :=
  List.mem_of_find?_eq_some h

theorem contentGet_nodeId {l : List ContentRec} {a : Nat} {c : ContentRec}
    (h : contentGet l a = some c) : c.nodeId = a := by
  have h1 := List.find?_some h
  simpa using h1

/-! ### The ancestor walk pIter and its finiteness -/

theorem pIter_add (m : List NodeRec) (i j a : Nat) :
    pIter m (i + j) a = (pIter m i a).bind (pIter m j) := by
  induction i generalizing a with
  | zero => simp [pIter]
  | succ i ih =>
    rw [Nat.succ_add]
    simp only [pIter]
    cases h : pnext m a with
    | none => simp
    | some b => simp [ih b]

theorem pIter_isSome_of_le {m : List NodeRec} {k a b : Nat}
    (h : pIter m k a = some b) {j : Nat} (hj : j ≤ k) :
    ∃ c, pIter m j a = some c := by
  rcases Nat.exists_eq_add_of_le hj with ⟨d, rfl⟩
  rw [pIter_add] at h
  cases hc : pIter m j a with
  | none => rw [hc] at h; simp at h
  | some c => exact ⟨c, rfl⟩

theorem pIter_lookup {m : List NodeRec} {k a b j : Nat}
    (h : pIter m k a = some b) (hj : j < k) :
    ∃ c n, pIter m j a = some c ∧ mapGet m c = some n := by
  obtain ⟨c, hc⟩ := pIter_isSome_of_le h (Nat.le_of_lt hj)
  obtain ⟨d, hd⟩ := pIter_isSome_of_le h hj
  have e : pIter m (j + 1) a = (pIter m j a).bind (pIter m 1) := pIter_add m j 1 a
  rw [hd, hc] at e
  simp only [Option.some_bind, Option.bind_some, pIter] at e
  cases hp : pnext m c with
  | none => rw [hp] at e; simp at e
  | some x =>
    unfold pnext at hp
    cases hg : mapGet m c with
    | none => rw [hg] at hp; simp at hp
    | some n => exact ⟨c, n, hc, hg⟩

theorem walk_collision (m : List NodeRec) (a : Nat)
    (h : ∀ j, j ≤ m.length → ∃ c n, pIter m j a = some c ∧ mapGet m c = some n) :
    ∃ i j, i < j ∧ j ≤ m.length ∧
      ∃ x, pIter m i a = some x ∧ pIter m j a = some x := by
  classical
  have hmaps : ∀ j ∈ Finset.range (m.length + 1),
      (pIter m j a).getD 0 ∈ (m.map (fun n => n.id)).toFinset := by
    intro j hj
    rw [Finset.mem_range] at hj
    obtain ⟨c, n, hc, hn⟩ := h j (Nat.lt_succ_iff.mp hj)
    rw [hc]
    simp only [Option.getD_some, List.mem_toFinset]
    have hmem : n ∈ m := mapGet_mem hn
    have hid : n.id = c := mapGet_id hn
    exact hid ▸ List.mem_map_of_mem (fun x => x.id) hmem
  have hcard : ((m.map (fun n => n.id)).toFinset).card < (Finset.range (m.length + 1)).card := by
    rw [Finset.card_range]
    calc ((m.map (fun n => n.id)).toFinset).card
        ≤ (m.map (fun n => n.id)).length := List.toFinset_card_le _
      _ = m.length := List.length_map _ _
      _ < m.length + 1 := Nat.lt_succ_self _
  obtain ⟨x, hx, y, hy, hxy, hfxy⟩ :=
    Finset.exists_ne_map_eq_of_card_lt_of_maps_to hcard hmaps
  rw [Finset.mem_range] at hx hy
  obtain ⟨cx, nx, hcx, _⟩ := h x (Nat.lt_succ_iff.mp hx)
  obtain ⟨cy, ny, hcy, _⟩ := h y (Nat.lt_succ_iff.mp hy)
  rw [hcx, hcy] at hfxy
  simp only [Option.getD_some] at hfxy
  rcases Nat.lt_or_ge x y with hlt | hge
  · exact ⟨x, y, hlt, Nat.lt_succ_iff.mp hy, cx, hcx, hfxy ▸ hcy⟩
  · have hlt : y < x := lt_of_le_of_ne hge (Ne.symm hxy)
    exact ⟨y, x, hlt, Nat.lt_succ_iff.mp hx, cy, hcy, hfxy ▸ hcx⟩

theorem pIter_shorten {m : List NodeRec} {a b : Nat} :
    ∀ k, pIter m k a = some b → ∃ j, j ≤ m.length ∧ pIter m j a = some b := by
  intro k
  induction k using Nat.strong_induction_on with
  | _ k ih =>
    intro h
    by_cases hk : k ≤ m.length
    · exact ⟨k, hk, h⟩
    · push_neg at hk
      have hall : ∀ j, j ≤ m.length → ∃ c n, pIter m j a = some c ∧ mapGet m c = some n :=
        fun j hj => pIter_lookup h (lt_of_le_of_lt hj hk)
      obtain ⟨i, j, hij, hjle, x, hxi, hxj⟩ := walk_collision m a hall
      have h1 : pIter m (i + (k - j)) a = some b := by
        have e1 : pIter m k a = (pIter m j a).bind (pIter m (k - j)) := by
          rw [← pIter_add]; congr 1; omega
        rw [e1, hxj] at h
        simp only [Option.some_bind] at h
        rw [pIter_add, hxi]
        simpa using h
      exact ih _ (by omega) h1

theorem cycle_of_long_walk {m : List NodeRec} {a : Nat}
    (h : ∀ j, j ≤ m.length → ∃ c n, pIter m j a = some c ∧ mapGet m c = some n) :
    ¬ Acyclic m := by
  obtain ⟨i, j, hij, _, x, hxi, hxj⟩ := walk_collision m a h
  intro hac
  have e : pIter m j a = (pIter m i a).bind (pIter m (j - i)) := by
    rw [← pIter_add]; congr 1; omega
  rw [hxj, hxi] at e
  simp only [Option.some_bind] at e
  exact hac x (j - i) (by omega) e.symm

/-! ### Characterizing isDescendant by the walk -/

theorem isDescT_true_iff (m : List NodeRec) (anc : Nat) :
    ∀ f p, (isDescT m (f + 1) (some p) anc = some true ↔
      ∃ j, j ≤ f ∧ pIter m j p = some anc) := by
  intro f
  induction f with
  | zero =>
    intro p
    constructor
    · intro h
      by_cases hp : p = anc
      · exact ⟨0, le_refl 0, by simp [pIter, hp]⟩
      · exfalso
        simp only [isDescT] at h
        rw [if_neg (by simpa using hp)] at h
        cases hg : mapGet m p with
        | none => rw [hg] at h; simp at h
        | some n => rw [hg] at h; simp [isDescT] at h
    · rintro ⟨j, hj, hpi⟩
      have hj0 : j = 0 := Nat.le_zero.mp hj
      subst hj0
      simp only [pIter, Option.some_inj] at hpi
      subst hpi
      simp [isDescT]
  | succ f ih =>
    intro p
    by_cases hp : p = anc
    · subst hp
      constructor
      · intro _
        exact ⟨0, Nat.zero_le _, by simp [pIter]⟩
      · intro _
        simp [isDescT]
    · have hne : ¬ (some p = some anc) := by simpa using hp
      cases hg : mapGet m p with
      | none =>
        constructor
        · intro h
          simp only [isDescT, if_neg hne, hg] at h
          exact absurd h (by simp)
        · rintro ⟨j, hj, hpi⟩
          exfalso
          cases j with
          | zero => simp only [pIter, Option.some_inj] at hpi; exact hp hpi
          | succ j' =>
            simp only [pIter] at hpi
            rw [show pnext m p = none by simp [pnext, hg]] at hpi
            simp at hpi
      | some n =>
        cases hpar : n.parentId with
        | none =>
          constructor
          · intro h
            simp only [isDescT, if_neg hne, hg, hpar] at h
            exact absurd h (by simp)
          · rintro ⟨j, hj, hpi⟩
            exfalso
            cases j with
            | zero => simp only [pIter, Option.some_inj] at hpi; exact hp hpi
            | succ j' =>
              simp only [pIter] at hpi
              rw [show pnext m p = none by simp [pnext, hg, hpar]] at hpi
              simp at hpi
        | some q =>
          have hstep : isDescT m (f + 1 + 1) (some p) anc = isDescT m (f + 1) (some q) anc := by
            simp only [isDescT, if_neg hne, hg, hpar]
          rw [hstep, ih q]
          constructor
          · rintro ⟨j, hj, hpi⟩
            refine ⟨j + 1, by omega, ?side⟩
            simp only [pIter]
            rw [show pnext m p = some q by simp [pnext, hg, hpar]]
            simpa using hpi
          · rintro ⟨j, hj, hpi⟩
            cases j with
            | zero => simp only [pIter, Option.some_inj] at hpi; exact absurd hpi hp
            | succ j' =>
              simp only [pIter] at hpi
              rw [show pnext m p = some q by simp [pnext, hg, hpar]] at hpi
              simp only [Option.some_bind] at hpi
              exact ⟨j', by omega, hpi⟩

theorem isDescB_true_of_reach {m : List NodeRec} {p anc : Nat}
    (h : p = anc ∨ ∃ k, 0 < k ∧ pIter m k p = some anc) :
    isDescB m (some p) anc = true := by
  unfold isDescB
  have ht : isDescT m (m.length + 1) (some p) anc = some true := by
    apply (isDescT_true_iff m anc m.length p).mpr
    rcases h with rfl | ⟨k, _, hw⟩
    · exact ⟨0, Nat.zero_le _, by simp [pIter]⟩
    · obtain ⟨j, hj, hw'⟩ := pIter_shorten k hw
      exact ⟨j, hj, hw'⟩
  rw [ht]
  rfl

theorem isDescB_false_no_reach {m : List NodeRec} {p anc : Nat}
    (h : isDescB m (some p) anc = false) :
    ∀ j, pIter m j p ≠ some anc := by
  intro j hw
  have : isDescB m (some p) anc = true := by
    apply isDescB_true_of_reach
    cases j with
    | zero =>
      left
      simpa [pIter] using hw
    | succ j' => exact Or.inr ⟨j' + 1, Nat.succ_pos _, hw⟩
  rw [this] at h
  cases h

/-! ### Acyclicity: transfer along sublists and rank certificates -/

theorem nodupIds_of_sublist {m' m : List NodeRec} (hsub : m'.Sublist m)
    (hnd : NodupIds m) : NodupIds m' :=
  List.Nodup.sublist (hsub.map (fun n => n.id)) hnd

theorem mapGet_mono_of_sublist {m' m : List NodeRec} (hsub : m'.Sublist m)
    (hnd : NodupIds m) {a : Nat} {r : NodeRec} (h : mapGet m' a = some r) :
    mapGet m a = some r := by
  have hmem : r ∈ m := hsub.subset (mapGet_mem h)
  have hid := mapGet_id h
  rw [← hid]
  exact mem_mapGet hmem hnd

theorem pIter_mono {m' m : List NodeRec}
    (hget : ∀ a r, mapGet m' a = some r → mapGet m a = some r) :
    ∀ k a b, pIter m' k a = some b → pIter m k a = some b := by
  intro k
  induction k with
  | zero => intro a b h; simpa [pIter] using h
  | succ k ih =>
    intro a b h
    simp only [pIter] at h ⊢
    cases hp : pnext m' a with
    | none => rw [hp] at h; simp at h
    | some c =>
      rw [hp] at h
      simp only [Option.some_bind] at h
      have hpn : pnext m a = some c := by
        unfold pnext at hp ⊢
        cases hg : mapGet m' a with
        | none => rw [hg] at hp; simp at hp
        | some r =>
          rw [hg] at hp
          rw [hget a r hg]
          simpa using hp
      rw [hpn]
      simpa using ih c b h

theorem acyclic_of_sublist {m' m : List NodeRec} (hsub : m'.Sublist m)
    (hnd : NodupIds m) (hac : Acyclic m) : Acyclic m' := by
  intro a k hk hcyc
  exact hac a k hk
    (pIter_mono (fun a r h => mapGet_mono_of_sublist hsub hnd h) k a a hcyc)

theorem acyclic_of_rankOkB (m : List NodeRec) (rank : Nat → Nat)
    (h : rankOkB m rank = true) : Acyclic m := by
  have hstep : ∀ a b, pnext m a = some b → rank b < rank a := by
    intro a b hab
    unfold pnext at hab
    cases hg : mapGet m a with
    | none => rw [hg] at hab; simp at hab
    | some n =>
      rw [hg] at hab
      simp only [Option.some_bind] at hab
      have hmem := mapGet_mem hg
      have hid := mapGet_id hg
      have hall := List.all_eq_true.mp h n hmem
      rw [hab] at hall
      simp only [decide_eq_true_eq] at hall
      rwa [hid] at hall
  have hiter : ∀ k a b, 0 < k → pIter m k a = some b → rank b < rank a := by
    intro k
    induction k with
    | zero => intro a b h0 _; omega
    | succ k ih =>
      intro a b _ hw
      simp only [pIter] at hw
      cases hp : pnext m a with
      | none => rw [hp] at hw; simp at hw
      | some c =>
        rw [hp] at hw
        simp only [Option.some_bind] at hw
        rcases Nat.eq_zero_or_pos k with rfl | hk
        · simp only [pIter, Option.some_inj] at hw
          exact hw ▸ hstep a c hp
        · exact lt_trans (ih c b hk hw) (hstep a c hp)
  intro a k hk hcyc
  exact lt_irrefl _ (hiter k a a hk hcyc)

/-! ### Characterization of a successful moveNode -/

theorem moveNode_success {s : StoreState} {X : Nat} {Q : Option Nat} (now : Nat)
    {nX : NodeRec} (hX : mapGet s.nodes X = some nX)
    (hguard : isDescB s.nodes Q X = false) :
    ∃ s', moveNode s X Q now = MoveResult.moved s'
      ∧ s'.nodes = mapSet s.nodes (movedRec nX Q (getChildren s.nodes Q).length now)
      ∧ s'.dbNodes = mapSet s.dbNodes (movedRec nX Q (getChildren s.nodes Q).length now)
      ∧ mapGet s'.nodes X = some (movedRec nX Q (getChildren s.nodes Q).length now)
      ∧ (∀ a, a ≠ X → mapGet s'.nodes a = mapGet s.nodes a) := by
  have hid : nX.id = X := mapGet_id hX
  unfold moveNode
  rw [hX, hguard]
  refine ⟨_, rfl, rfl, rfl, ?_, ?_⟩
  · have h1 := mapGet_mapSet_self s.nodes (movedRec nX Q (getChildren s.nodes Q).length now)
    simpa [movedRec, hid] using h1
  · intro a ha
    exact mapGet_mapSet_ne (by simpa [movedRec, hid] using ha)

/-! ### The claims -/

/-- Claim C8: operating on an unknown id is a benign no-op across
update, delete and move: updateNode returns the not-found signal (null),
deleteNode and moveNode return without raising, and all three leave the
in-memory state and durable storage unchanged. -/
theorem unknownId_noop (s : StoreState) (a : Nat) (u : NodeUpdates)
    (p : Option Nat) (now fuel : Nat) (h : mapGet s.nodes a = none) :
    updateNode s a u now = (none, s)
    ∧ deleteNodeF (fuel + 1) s a = some s
    ∧ moveNode s a p now = MoveResult.noNode s := by
  refine ⟨?_, ?_, ?_⟩
  · simp [updateNode, h]
  · simp [deleteNodeF, h]
  · simp [moveNode, h]

theorem unknownId_noop_witness :
    mapGet storeAB.nodes 99 = none
    ∧ (updateNode storeAB 99 {} 5 = (none, storeAB)
       ∧ deleteNodeF (3 + 1) storeAB 99 = some storeAB
       ∧ moveNode storeAB 99 (some 1) 5 = MoveResult.noNode storeAB) :=
  ⟨by decide, unknownId_noop storeAB 99 {} (some 1) 5 3 (by decide)⟩

/-- Claim C3: a successful moveNode of X to a parent Q distinct from X's
current parent appends X at orderIndex = number of existing children of
Q at call time, and leaves every other node record unchanged (in
particular the former siblings keep their orderIndex values: the vacated
position is not compacted). -/
theorem moveNode_appends_at_end (s : StoreState) (X : Nat) (Q : Option Nat)
    (now : Nat) (nX : NodeRec) (hX : mapGet s.nodes X = some nX)
    (_hQ : nX.parentId ≠ Q) (hguard : isDescB s.nodes Q X = false) :
    ∃ s', moveNode s X Q now = MoveResult.moved s'
      ∧ mapGet s'.nodes X = some (movedRec nX Q (getChildren s.nodes Q).length now)
      ∧ (∀ a, a ≠ X → mapGet s'.nodes a = mapGet s.nodes a) := by
  obtain ⟨s', hmv, _, _, hXnew, hother⟩ := moveNode_success now hX hguard
  exact ⟨s', hmv, hXnew, hother⟩

theorem moveNode_appends_at_end_witness :
    mapGet storePQ.nodes 5 = some (mkNode 5 (some 1) .leaf "X" 2)
    ∧ (mkNode 5 (some 1) .leaf "X" 2).parentId ≠ some 2
    ∧ isDescB storePQ.nodes (some 2) 5 = false
    ∧ (∃ s', moveNode storePQ 5 (some 2) 9 = MoveResult.moved s'
        ∧ mapGet s'.nodes 5 =
            some (movedRec (mkNode 5 (some 1) .leaf "X" 2) (some 2)
              (getChildren storePQ.nodes (some 2)).length 9)
        ∧ (∀ a, a ≠ 5 → mapGet s'.nodes a = mapGet storePQ.nodes a)) :=
  ⟨by decide, by decide, by decide,
   moveNode_appends_at_end storePQ 5 (some 2) 9 (mkNode 5 (some 1) .leaf "X" 2)
     (by decide) (by decide) (by decide)⟩

/-- Claim C9, counterexample: moveNode accepts a leaf node as the new
parent.  In a store of two root leaves L (id 1) and X (id 2), moving X
under L succeeds and records parentId = 1 although node 1 is a leaf, so
a non-root node's parentId does not resolve to a folder-type node. -/
theorem moveNode_into_leaf_counterexample :
    (mapGet storeLL.nodes 1).map (fun n => n.ntype) = some NodeType.leaf
    ∧ moveNode storeLL 2 (some 1) 7
        = MoveResult.moved (moveNode storeLL 2 (some 1) 7).state
    ∧ (mapGet (moveNode storeLL 2 (some 1) 7).state.nodes 2).map (fun n => n.parentId)
        = some (some 1) := by
  decide

/-- Claim C9 (amended): the store does not validate the target parent.
moveNode succeeds for any target that is not the node itself or one of
its descendants — including leaf ids and ids not present in the map —
and writes that target verbatim as the node's parentId (neither
rejection nor reduction to sibling placement happens); likewise
createNode attaches the new node to whatever parentId it is given.
Keeping every non-root parentId pointing at an existing folder is the
calling layer's responsibility. -/
theorem moveNode_createNode_no_parent_validation :
    (∀ (s : StoreState) (X : Nat) (Q : Option Nat) (now : Nat) (nX : NodeRec),
      mapGet s.nodes X = some nX → isDescB s.nodes Q X = false →
      ∃ s', moveNode s X Q now = MoveResult.moved s'
        ∧ ∃ r, mapGet s'.nodes X = some r ∧ r.parentId = Q)
    ∧ (∀ (s : StoreState) (args : CreateArgs) (newId now : Nat),
        (createNode s args newId now).1.parentId = args.parentId) := by
  constructor
  · intro s X Q now nX hX hguard
    obtain ⟨s', hmv, _, _, hXnew, _⟩ := moveNode_success now hX hguard
    exact ⟨s', hmv, _, hXnew, rfl⟩
  · intro s args newId now
    rfl

theorem moveNode_createNode_no_parent_validation_witness :
    mapGet storeLL.nodes 2 = some (mkNode 2 none .leaf "X" 1)
    ∧ isDescB storeLL.nodes (some 1) 2 = false
    ∧ (∃ s', moveNode storeLL 2 (some 1) 7 = MoveResult.moved s'
        ∧ ∃ r, mapGet s'.nodes 2 = some r ∧ r.parentId = some 1)
    ∧ (createNode storeLL { name := "N", ntype := .leaf, parentId := some 99 } 9 7).1.parentId
        = some 99 :=
  ⟨by decide, by decide,
   moveNode_createNode_no_parent_validation.1 storeLL 2 (some 1) 7
     (mkNode 2 none .leaf "X" 1) (by decide) (by decide),
   moveNode_createNode_no_parent_validation.2 storeLL
     { name := "N", ntype := .leaf, parentId := some 99 } 9 7⟩

/-! ### Export / import round trip -/

theorem contentSet_fresh {l : List ContentRec} {c : ContentRec}
    (h : ∀ x ∈ l, x.nodeId ≠ c.nodeId) : contentSet l c = l ++ [c] := by
  unfold contentSet
  rw [if_neg]
  intro hsome
  rw [List.find?_eq_none.mpr (by intro x hx; simpa using h x hx)] at hsome
  simp at hsome

theorem foldl_mapSet_disjoint (l : List NodeRec) :
    ∀ acc, NodupIds l → (∀ x ∈ l, ∀ y ∈ acc, y.id ≠ x.id) →
    l.foldl (fun acc n => mapSet acc n) acc = acc ++ l := by
  induction l with
  | nil => intro acc _ _; simp
  | cons n ns ih =>
    intro acc hnd hdisj
    have hfresh : mapSet acc n = acc ++ [n] :=
      mapSet_fresh (fun y hy => hdisj n (List.mem_cons_self n ns) y hy)
    have hnd' : NodupIds ns := by
      simp only [NodupIds, List.map_cons, List.nodup_cons] at hnd
      exact hnd.2
    have hdisj' : ∀ x ∈ ns, ∀ y ∈ acc ++ [n], y.id ≠ x.id := by
      intro x hx y hy
      rcases List.mem_append.mp hy with hy | hy
      · exact hdisj x (List.mem_cons_of_mem _ hx) y hy
      · have hyn : y = n := by simpa using hy
        subst hyn
        simp only [NodupIds, List.map_cons, List.nodup_cons] at hnd
        intro he
        exact hnd.1 (he ▸ List.mem_map_of_mem (fun z => z.id) hx)
    calc (n :: ns).foldl (fun acc x => mapSet acc x) acc
        = ns.foldl (fun acc x => mapSet acc x) (mapSet acc n) := rfl
      _ = (acc ++ [n]) ++ ns := by rw [hfresh]; exact ih _ hnd' hdisj'
      _ = acc ++ n :: ns := by simp

theorem foldl_contentSet_disjoint (l : List ContentRec) :
    ∀ acc, (l.map (fun c => c.nodeId)).Nodup →
    (∀ x ∈ l, ∀ y ∈ acc, y.nodeId ≠ x.nodeId) →
    l.foldl (fun acc c => contentSet acc c) acc = acc ++ l := by
  induction l with
  | nil => intro acc _ _; simp
  | cons n ns ih =>
    intro acc hnd hdisj
    have hfresh : contentSet acc n = acc ++ [n] :=
      contentSet_fresh (fun y hy => hdisj n (List.mem_cons_self n ns) y hy)
    have hnd' : (ns.map (fun c => c.nodeId)).Nodup := by
      simp only [List.map_cons, List.nodup_cons] at hnd
      exact hnd.2
    have hdisj' : ∀ x ∈ ns, ∀ y ∈ acc ++ [n], y.nodeId ≠ x.nodeId := by
      intro x hx y hy
      rcases List.mem_append.mp hy with hy | hy
      · exact hdisj x (List.mem_cons_of_mem _ hx) y hy
      · have hyn : y = n := by simpa using hy
        subst hyn
        simp only [List.map_cons, List.nodup_cons] at hnd
        intro he
        exact hnd.1 (he ▸ List.mem_map_of_mem (fun z => z.nodeId) hx)
    calc (n :: ns).foldl (fun acc x => contentSet acc x) acc
        = ns.foldl (fun acc x => contentSet acc x) (contentSet acc n) := rfl
      _ = (acc ++ [n]) ++ ns := by rw [hfresh]; exact ih _ hnd' hdisj'
      _ = acc ++ n :: ns := by simp

/-- Claim C7: importAll of exportAll followed by the reload reproduces an
observably identical tree: both durable stores are restored verbatim, the
reloaded in-memory map equals the one before export, and therefore
getNode, getChildren and the Content lookups are unchanged. -/
theorem importVault_exportVault_roundtrip (s : StoreState) (dateStr : String)
    (hnd : NodupIds s.dbNodes)
    (hnc : (s.dbContents.map (fun c => c.nodeId)).Nodup)
    (hsync : s.nodes = s.dbNodes) :
    (importVault s (exportVault s dateStr)).nodes = s.nodes
    ∧ (importVault s (exportVault s dateStr)).dbNodes = s.dbNodes
    ∧ (importVault s (exportVault s dateStr)).dbContents = s.dbContents
    ∧ (∀ a, getNode (importVault s (exportVault s dateStr)) a = getNode s a)
    ∧ (∀ p, getChildren (importVault s (exportVault s dateStr)).nodes p
        = getChildren s.nodes p)
    ∧ (∀ a, contentGet (importVault s (exportVault s dateStr)).dbContents a
        = contentGet s.dbContents a) := by
  have h1 : (importAll s (exportVault s dateStr)).dbNodes = s.dbNodes := by
    show s.dbNodes.foldl (fun acc n => mapSet acc n) [] = s.dbNodes
    simpa using foldl_mapSet_disjoint s.dbNodes [] hnd (by simp)
  have h2 : (importAll s (exportVault s dateStr)).dbContents = s.dbContents := by
    show s.dbContents.foldl (fun acc c => contentSet acc c) [] = s.dbContents
    simpa using foldl_contentSet_disjoint s.dbContents [] hnc (by simp)
  have hn : (importVault s (exportVault s dateStr)).nodes = s.nodes := by
    show (importAll s (exportVault s dateStr)).dbNodes = s.nodes
    rw [h1, hsync]
  have hdn : (importVault s (exportVault s dateStr)).dbNodes = s.dbNodes := h1
  have hdc : (importVault s (exportVault s dateStr)).dbContents = s.dbContents := h2
  refine ⟨hn, hdn, hdc, ?_, ?_, ?_⟩
  · intro a
    show mapGet (importVault s (exportVault s dateStr)).nodes a = mapGet s.nodes a
    rw [hn]
  · intro p
    rw [hn]
  · intro a
    rw [hdc]

theorem importVault_exportVault_roundtrip_witness :
    NodupIds storeTree.dbNodes
    ∧ (storeTree.dbContents.map (fun c => c.nodeId)).Nodup
    ∧ storeTree.nodes = storeTree.dbNodes
    ∧ ((importVault storeTree (exportVault storeTree "2024-01-15")).nodes = storeTree.nodes
       ∧ (importVault storeTree (exportVault storeTree "2024-01-15")).dbNodes = storeTree.dbNodes
       ∧ (importVault storeTree (exportVault storeTree "2024-01-15")).dbContents = storeTree.dbContents
       ∧ (∀ a, getNode (importVault storeTree (exportVault storeTree "2024-01-15")) a
           = getNode storeTree a)
       ∧ (∀ p, getChildren (importVault storeTree (exportVault storeTree "2024-01-15")).nodes p
           = getChildren storeTree.nodes p)
       ∧ (∀ a, contentGet (importVault storeTree (exportVault storeTree "2024-01-15")).dbContents a
           = contentGet storeTree.dbContents a)) :=
  ⟨by decide, by decide, by decide,
   importVault_exportVault_roundtrip storeTree "2024-01-15" (by decide) (by decide) (by decide)⟩

/-! ### The stable sorts -/

theorem insertByKey_perm {α : Type} (key : α → Nat) (a : α) (l : List α) :
    (insertByKey key a l).Perm (a :: l) := by
  induction l with
  | nil => simp [insertByKey]
  | cons b bs ih =>
    simp only [insertByKey]
    split
    · exact (ih.cons b).trans (List.Perm.swap a b bs)
    · exact List.Perm.refl _

theorem sortByKey_perm {α : Type} (key : α → Nat) (l : List α) :
    (sortByKey key l).Perm l := by
  induction l with
  | nil => simp [sortByKey]
  | cons a as ih =>
    simp only [sortByKey]
    exact (insertByKey_perm key a (sortByKey key as)).trans (ih.cons a)

theorem insertByKeyDesc_perm {α : Type} (key : α → Nat) (a : α) (l : List α) :
    (insertByKeyDesc key a l).Perm (a :: l) := by
  induction l with
  | nil => simp [insertByKeyDesc]
  | cons b bs ih =>
    simp only [insertByKeyDesc]
    split
    · exact (ih.cons b).trans (List.Perm.swap a b bs)
    · exact List.Perm.refl _

theorem sortByKeyDesc_perm {α : Type} (key : α → Nat) (l : List α) :
    (sortByKeyDesc key l).Perm l := by
  induction l with
  | nil => simp [sortByKeyDesc]
  | cons a as ih =>
    simp only [sortByKeyDesc]
    exact (insertByKeyDesc_perm key a (sortByKeyDesc key as)).trans (ih.cons a)

theorem insertByKeyDesc_pairwise {α : Type} (key : α → Nat) (a : α) {l : List α}
    (h : l.Pairwise (fun x y => key y ≤ key x)) :
    (insertByKeyDesc key a l).Pairwise (fun x y => key y ≤ key x) := by
  induction l with
  | nil => simp [insertByKeyDesc]
  | cons b bs ih =>
    rw [List.pairwise_cons] at h
    simp only [insertByKeyDesc]
    split
    · rename_i hlt
      rw [List.pairwise_cons]
      constructor
      · intro y hy
        have hy' : y ∈ a :: bs := ((insertByKeyDesc_perm key a bs).mem_iff).mp hy
        rcases List.mem_cons.mp hy' with rfl | hy''
        · exact Nat.le_of_lt hlt
        · exact h.1 y hy''
      · exact ih h.2
    · rename_i hge
      rw [List.pairwise_cons]
      constructor
      · intro y hy
        rcases List.mem_cons.mp hy with rfl | hy'
        · omega
        · exact Nat.le_trans (h.1 y hy') (by omega)
      · exact List.pairwise_cons.mpr h
  
theorem sortByKeyDesc_pairwise {α : Type} (key : α → Nat) (l : List α) :
    (sortByKeyDesc key l).Pairwise (fun x y => key y ≤ key x) := by
  induction l with
  | nil => simp [sortByKeyDesc]
  | cons a as ih =>
    simp only [sortByKeyDesc]
    exact insertByKeyDesc_pairwise key a ih

/-- Inversion of membership in the scored results list. -/
theorem searchHits_sound (s : StoreState) (lq : String) :
    ∀ r ∈ searchHits s lq,
      0 < r.score
      ∧ ∃ e ∈ buildSearchIndex s.nodes,
          r.node.id = e.id ∧ r.score = calculateSearchScore lq e
          ∧ mapGet s.nodes e.id = some r.node := by
  intro r hr
  obtain ⟨e, he, hfe⟩ := List.mem_filterMap.mp hr
  by_cases hs : 0 < calculateSearchScore lq e
  · rw [if_pos hs] at hfe
    cases hg : mapGet s.nodes e.id with
    | none => rw [hg] at hfe; simp at hfe
    | some node =>
      rw [hg] at hfe
      have hre := Option.some.inj hfe
      subst hre
      exact ⟨hs, e, he, mapGet_id hg, rfl, hg⟩
  · rw [if_neg hs] at hfe
    simp at hfe

/-- Claim C5 (amended): search trims the query only for the emptiness
short-circuit; the query used for matching is the lowercased original
(not the trimmed one).  With that query, every index entry is scored 100
for an exact normalized-name match, else 50 for a prefix, else 20 for a
substring, with an independent additive 10 when the normalized path
contains the query; zero scores are excluded, the results are sorted
descending by score and truncated to limit. -/
theorem search_scoring_spec (s : StoreState) (q : String) (limit : Nat) :
    (strTrim q = "" → search s q limit = [])
    ∧ (search s q limit).length ≤ limit
    ∧ (∀ r ∈ search s q limit,
        0 < r.score
        ∧ ∃ e ∈ buildSearchIndex s.nodes,
            r.node.id = e.id ∧ r.score = calculateSearchScore (strLower q) e
            ∧ mapGet s.nodes e.id = some r.node)
    ∧ (search s q limit).Pairwise (fun a b => b.score ≤ a.score)
    ∧ (strTrim q ≠ "" →
        ∀ e ∈ buildSearchIndex s.nodes,
          0 < calculateSearchScore (strLower q) e →
          ∀ node, mapGet s.nodes e.id = some node →
          (searchHits s (strLower q)).length ≤ limit →
          ∃ r ∈ search s q limit,
            r.node = node ∧ r.score = calculateSearchScore (strLower q) e) := by
  refine ⟨?_, ?_, ?_, ?_, ?_⟩
  · intro h
    simp [search, h]
  · by_cases h : strTrim q = ""
    · simp [search, h]
    · rw [search, if_neg h]
      calc ((sortByKeyDesc (fun r => r.score) (searchHits s (strLower q))).take limit).length
          = min limit (sortByKeyDesc (fun r => r.score) (searchHits s (strLower q))).length :=
            List.length_take _ _
        _ ≤ limit := Nat.min_le_left _ _
  · intro r hr
    by_cases h : strTrim q = ""
    · rw [search, if_pos h] at hr
      cases hr
    · rw [search, if_neg h] at hr
      have hr1 := List.mem_of_mem_take hr
      have hr2 := ((sortByKeyDesc_perm (fun r : SearchResult => r.score) _).mem_iff).mp hr1
      exact searchHits_sound s (strLower q) r hr2
  · by_cases h : strTrim q = ""
    · simp [search, h]
    · rw [search, if_neg h]
      exact List.Pairwise.sublist (List.take_sublist _ _)
        (sortByKeyDesc_pairwise (fun r : SearchResult => r.score) _)
  · intro htrim e he hscore node hnode hlen
    have hmem : ({ node := node, score := calculateSearchScore (strLower q) e
                   path := getNodePathB s.nodes e.id } : SearchResult)
        ∈ searchHits s (strLower q) := by
      apply List.mem_filterMap.mpr
      refine ⟨e, he, ?_⟩
      rw [if_pos hscore, hnode]
    have hmem2 := ((sortByKeyDesc_perm (fun r : SearchResult => r.score) _).mem_iff).mpr hmem
    have hall : (sortByKeyDesc (fun r => r.score) (searchHits s (strLower q))).take limit
        = sortByKeyDesc (fun r => r.score) (searchHits s (strLower q)) := by
      apply List.take_of_length_le
      rw [(sortByKeyDesc_perm (fun r : SearchResult => r.score) _).length_eq]
      exact hlen
    rw [search, if_neg htrim, hall]
    exact ⟨_, hmem2, rfl, rfl⟩

theorem search_scoring_spec_witness :
    strTrim "em" ≠ ""
    ∧ ({ id := 6, name := "emerald mire", ntype := NodeType.leaf
         path := "locations > swamps > emerald mire" } : IndexEntry)
        ∈ buildSearchIndex storeSearch.nodes
    ∧ 0 < calculateSearchScore (strLower "em")
        { id := 6, name := "emerald mire", ntype := NodeType.leaf
          path := "locations > swamps > emerald mire" }
    ∧ mapGet storeSearch.nodes 6 = some (mkNode 6 (some 5) .leaf "Emerald Mire" 0)
    ∧ (searchHits storeSearch (strLower "em")).length ≤ 20
    ∧ ∃ r ∈ search storeSearch "em" 20,
        r.node = mkNode 6 (some 5) .leaf "Emerald Mire" 0
        ∧ r.score = calculateSearchScore (strLower "em")
            { id := 6, name := "emerald mire", ntype := NodeType.leaf
              path := "locations > swamps > emerald mire" } :=
  ⟨by decide, by decide, by decide, by decide, by decide,
   (search_scoring_spec storeSearch "em" 20).2.2.2.2 (by decide)
     { id := 6, name := "emerald mire", ntype := NodeType.leaf
       path := "locations > swamps > emerald mire" }
     (by decide) (by decide) (mkNode 6 (some 5) .leaf "Emerald Mire" 0)
     (by decide) (by decide)⟩

/-- Claim C5, counterexample to the claim as stated: the code does not
trim the query it matches with.  For the query "em " (trailing blank)
the claimed trimmed matching gives Emerald Mire a positive score, so the
claimed result set is non-empty, but the code returns no results. -/
theorem search_trim_counterexample :
    search storeSearch "em " 20 = []
    ∧ (searchSpecTrimmed storeSearch "em " 20).map (fun r => (r.node.id, r.score))
        = [(6, 60), (7, 60), (8, 10)]
    ∧ 0 < calculateSearchScore (strLower (strTrim "em "))
        { id := 6, name := "emerald mire", ntype := NodeType.leaf
          path := "locations > swamps > emerald mire" } := by
  decide

/-- Claim C6, counterexample to the stated scores: the indexed path
includes the node's own name, so a name match always also collects the
+10 path bonus.  "grahda" scores 110 (not 100) and "em" gives Emerald
Mire 60 (not 50). -/
theorem search_example_scores_counterexample :
    (search storeSearch "grahda" 20).map (fun r => r.score) = [110]
    ∧ ([110] : List Nat) ≠ [100]
    ∧ ((search storeSearch "em" 20).map (fun r => r.score)).head? = some 60
    ∧ (some 60 : Option Nat) ≠ some 50 := by
  decide

/-- Claim C6 (amended): on the example index, "grahda" returns Grahda
first with score 110 (100 exact-name + 10 path, the path containing the
node's own name), and "em" returns Emerald Mire first with score 60 (50
prefix + 10 path), ranked above Bog which matches "em" only through its
path and scores 10. -/
theorem search_example_results :
    (search storeSearch "grahda" 20).map (fun r => (r.node.name, r.score))
      = [("Grahda", 110)]
    ∧ (search storeSearch "em" 20).map (fun r => (r.node.name, r.score))
      = [("Emerald Mire", 60), ("Emerald Hollow", 60), ("Bog", 10)] := by
  decide

/-! ### deleteNode only removes records -/

theorem storeSub_refl (s : StoreState) : StoreSub s s :=
  ⟨List.Sublist.refl _, List.Sublist.refl _, List.Sublist.refl _⟩

theorem storeSub_trans {t u s : StoreState} (h1 : StoreSub t u) (h2 : StoreSub u s) :
    StoreSub t s :=
  ⟨h1.1.trans h2.1, h1.2.1.trans h2.2.1, h1.2.2.trans h2.2.2⟩

theorem deleteFinish_storeSub (s : StoreState) (node : NodeRec) :
    StoreSub (deleteFinish s node) s :=
  ⟨mapDelete_sublist s.nodes node.id, mapDelete_sublist s.dbNodes node.id,
   contentDelete_sublist s.dbContents node.id⟩

theorem deleteNodeF_storeSub :
    ∀ fuel s a s', deleteNodeF fuel s a = some s' → StoreSub s' s := by
  intro fuel
  induction fuel with
  | zero => intro s a s' h; simp [deleteNodeF] at h
  | succ fuel ih =>
    have hfold : ∀ ids s t, optFold (deleteNodeF fuel) s ids = some t → StoreSub t s := by
      intro ids
      induction ids with
      | nil =>
        intro s t h
        simp only [optFold, Option.some_inj] at h
        exact h ▸ storeSub_refl s
      | cons c cs ihc =>
        intro s t h
        simp only [optFold] at h
        cases hd : deleteNodeF fuel s c with
        | none => rw [hd] at h; cases h
        | some s1 =>
          rw [hd] at h
          exact storeSub_trans (ihc s1 t h) (ih s c s1 hd)
    intro s a s' h
    simp only [deleteNodeF] at h
    cases hg : mapGet s.nodes a with
    | none =>
      rw [hg] at h
      simp only [Option.some_inj] at h
      exact h ▸ storeSub_refl s
    | some node =>
      rw [hg] at h
      cases hf : optFold (deleteNodeF fuel) s
          ((getChildren s.nodes (some a)).map (fun n => n.id)) with
      | none => rw [hf] at h; cases h
      | some s1 =>
        rw [hf] at h
        simp only [Option.some_inj] at h
        exact h ▸ storeSub_trans (deleteFinish_storeSub s1 node) (hfold _ s s1 hf)

/-! ### Contiguity of the touched sibling group -/

theorem createNode_contiguous (s : StoreState) (args : CreateArgs) (newId now : Nat)
    (hfresh : ∀ x ∈ s.nodes, x.id ≠ newId)
    (hcont : Contiguous s.nodes args.parentId) :
    Contiguous (createNode s args newId now).2.nodes args.parentId := by
  have hnodes : (createNode s args newId now).2.nodes
      = s.nodes ++ [(createNode s args newId now).1] :=
    mapSet_fresh (fun x hx => hfresh x hx)
  unfold Contiguous
  rw [hnodes]
  have hP : ((createNode s args newId now).1.parentId == args.parentId) = true := by
    simp [createNode]
  rw [List.filter_append]
  have hone : List.filter (fun n => n.parentId == args.parentId)
      [(createNode s args newId now).1] = [(createNode s args newId now).1] := by
    simp [List.filter, hP]
  rw [hone, List.map_append, List.length_append]
  have hoi : (createNode s args newId now).1.orderIndex
      = (s.nodes.filter (fun n => n.parentId == args.parentId)).length := by
    show (getChildren s.nodes args.parentId).length = _
    exact (sortByKey_perm _ _).length_eq
  simp only [List.map_cons, List.map_nil, List.length_cons, List.length_nil]
  rw [hoi, List.range_succ]
  exact List.Perm.append_right _ hcont

theorem ids_map_replaceWith (m : List NodeRec) (a : Nat) (v : NodeRec) (hv : v.id = a) :
    (m.map (fun x => if x.id = a then v else x)).map (fun x => x.id)
      = m.map (fun x => x.id) := by
  rw [List.map_map]
  apply List.map_congr_left
  intro x _
  by_cases h : x.id = a
  · simp [h, hv]
  · simp [h]

theorem mapGet_map_replace_ne (m : List NodeRec) (a : Nat) (v : NodeRec)
    (hv : v.id = a) {b : Nat} (hb : b ≠ a) :
    mapGet (m.map (fun x => if x.id = a then v else x)) b = mapGet m b := by
  induction m with
  | nil => simp [mapGet]
  | cons x xs ih =>
    by_cases hx : x.id = a
    · have hxa : (x.id == b) = false := by
        simp only [beq_eq_false_iff_ne, ne_eq]
        intro he; exact hb (he ▸ hx)
      have hva : (v.id == b) = false := by
        simp only [beq_eq_false_iff_ne, ne_eq]
        intro he; exact hb (he ▸ hv)
      simp only [List.map_cons, mapGet, List.find?, if_pos hx, hva, hxa]
      exact ih
    · simp only [List.map_cons, mapGet, List.find?, if_neg hx]
      cases hxa : (x.id == b) with
      | true => rfl
      | false => exact ih

theorem mapSet_present {m : List NodeRec} {n : NodeRec}
    (h : (mapGet m n.id).isSome) :
    mapSet m n = m.map (fun x => if x.id = n.id then n else x) := by
  have h' : (m.find? (fun x => x.id == n.id)).isSome = true := h
  simp [mapSet, h']

theorem renumber_fold_nodes (now : Nat) :
    ∀ (ps : List (Nat × NodeRec)) (s₀ : StoreState),
      NodupIds s₀.nodes →
      (ps.map (fun p => (p.2).id)).Nodup →
      (∀ p ∈ ps, mapGet s₀.nodes (p.2).id = some p.2) →
      (ps.foldl (renumberStep now) s₀).nodes
        = s₀.nodes.map (fun r =>
            match ps.find? (fun p => (p.2).id == r.id) with
            | some p => finalRec now p.1 p.2
            | none => r) := by
  intro ps
  induction ps with
  | nil =>
    intro s₀ _ _ _
    simp [List.find?]
  | cons q rest ih =>
    intro s₀ hnd hpnd hpres
    obtain ⟨i, sib⟩ := q
    have hsib : mapGet s₀.nodes sib.id = some sib :=
      hpres (i, sib) (List.mem_cons_self _ _)
    have hheadnotin : ∀ p ∈ rest, (p.2).id ≠ sib.id := by
      intro p hp he
      simp only [List.map_cons, List.nodup_cons] at hpnd
      exact hpnd.1 (he ▸ List.mem_map_of_mem (fun p => (p.2).id) hp)
    have hs₁nodes : (renumberStep now s₀ (i, sib)).nodes
        = s₀.nodes.map (fun r => if r.id = sib.id then finalRec now i sib else r) := by
      unfold renumberStep
      by_cases hoi : sib.orderIndex = i
      · rw [if_pos hoi]
        have hid : ∀ r ∈ s₀.nodes,
            (if r.id = sib.id then finalRec now i sib else r) = r := by
          intro r hr
          by_cases hrid : r.id = sib.id
          · rw [if_pos hrid]
            unfold finalRec
            rw [if_pos hoi]
            exact (mapGet_unique hnd hsib hr hrid).symm
          · rw [if_neg hrid]
        calc s₀.nodes = s₀.nodes.map id := (List.map_id _).symm
          _ = s₀.nodes.map (fun r => if r.id = sib.id then finalRec now i sib else r) :=
            (List.map_congr_left (fun r hr => hid r hr)).symm
      · rw [if_neg hoi]
        show mapSet s₀.nodes { sib with orderIndex := i, updatedAt := now } = _
        rw [mapSet_present (by rw [show ({ sib with orderIndex := i, updatedAt := now} : NodeRec).id = sib.id from rfl, hsib]; rfl)]
        apply List.map_congr_left
        intro r _
        have : finalRec now i sib = { sib with orderIndex := i, updatedAt := now } := by
          unfold finalRec
          rw [if_neg hoi]
        rw [this]
    have hnd₁ : NodupIds (renumberStep now s₀ (i, sib)).nodes := by
      unfold NodupIds
      rw [hs₁nodes, ids_map_replaceWith s₀.nodes sib.id (finalRec now i sib)
        (by unfold finalRec; split <;> rfl)]
      exact hnd
    have hpres₁ : ∀ p ∈ rest, mapGet (renumberStep now s₀ (i, sib)).nodes (p.2).id = some p.2 := by
      intro p hp
      show mapGet _ _ = _
      have hne : (p.2).id ≠ sib.id := hheadnotin p hp
      calc mapGet (renumberStep now s₀ (i, sib)).nodes (p.2).id
          = mapGet (s₀.nodes.map (fun r => if r.id = sib.id then finalRec now i sib else r)) (p.2).id := by
            rw [hs₁nodes]
        _ = mapGet s₀.nodes (p.2).id :=
            mapGet_map_replace_ne s₀.nodes sib.id (finalRec now i sib)
              (by unfold finalRec; split <;> rfl) hne
        _ = some p.2 := hpres p (List.mem_cons_of_mem _ hp)
    have hrestnd : (rest.map (fun p => (p.2).id)).Nodup := by
      simp only [List.map_cons, List.nodup_cons] at hpnd
      exact hpnd.2
    have hrec := ih (renumberStep now s₀ (i, sib)) hnd₁ hrestnd hpres₁
    calc (((i, sib) :: rest).foldl (renumberStep now) s₀).nodes
        = (rest.foldl (renumberStep now) (renumberStep now s₀ (i, sib))).nodes := rfl
      _ = (renumberStep now s₀ (i, sib)).nodes.map (fun r =>
            match rest.find? (fun p => (p.2).id == r.id) with
            | some p => finalRec now p.1 p.2
            | none => r) := hrec
      _ = (s₀.nodes.map (fun r => if r.id = sib.id then finalRec now i sib else r)).map
            (fun r => match rest.find? (fun p => (p.2).id == r.id) with
                      | some p => finalRec now p.1 p.2
                      | none => r) := by rw [hs₁nodes]
      _ = s₀.nodes.map (fun r =>
            match (((i, sib) :: rest).find? (fun p => (p.2).id == r.id)) with
            | some p => finalRec now p.1 p.2
            | none => r) := by
          rw [List.map_map]
          apply List.map_congr_left
          intro r hr
          by_cases hrid : r.id = sib.id
          · have hreq : r = sib := mapGet_unique hnd hsib hr hrid
            have hhead : (((i, sib) :: rest).find? (fun p => (p.2).id == r.id))
                = some (i, sib) := by
              simp [List.find?, hrid]
            rw [hhead]
            have hfnone : rest.find?
                (fun p => (p.2).id == (finalRec now i sib).id) = none := by
              apply List.find?_eq_none.mpr
              intro p hp
              have : (finalRec now i sib).id = sib.id := by unfold finalRec; split <;> rfl
              rw [this]
              simp only [beq_eq_false_iff_ne, ne_eq, Bool.not_eq_true, beq_eq_false_iff_ne]
              exact hheadnotin p hp
            simp only [Function.comp, if_pos hrid]
            rw [hfnone]
          · have hhead : (((i, sib) :: rest).find? (fun p => (p.2).id == r.id))
                = rest.find? (fun p => (p.2).id == r.id) := by
              have : (sib.id == r.id) = false := by
                simp only [beq_eq_false_iff_ne, ne_eq]
                intro he; exact hrid he.symm
              simp [List.find?, this]
            rw [hhead]
            simp only [Function.comp, if_neg hrid]

theorem finalRec_orderIndex (now i : Nat) (sib : NodeRec) :
    (finalRec now i sib).orderIndex = i := by
  unfold finalRec
  split
  · rename_i h; exact h
  · rfl

theorem finalRec_id (now i : Nat) (sib : NodeRec) : (finalRec now i sib).id = sib.id := by
  unfold finalRec
  split <;> rfl

theorem finalRec_parentId (now i : Nat) (sib : NodeRec) :
    (finalRec now i sib).parentId = sib.parentId := by
  unfold finalRec
  split <;> rfl

theorem map_enumFrom_index (now : Nat) :
    ∀ (l : List NodeRec) (n : Nat), (l.map (fun x => x.id)).Nodup →
      l.map (fun x =>
        match (l.enumFrom n).find? (fun p => (p.2).id == x.id) with
        | some p => (finalRec now p.1 p.2).orderIndex
        | none => x.orderIndex)
      = (List.range l.length).map (fun i => n + i) := by
  intro l
  induction l with
  | nil => intro n _; simp
  | cons sib rest ihl =>
    intro n hnd
    simp only [List.map_cons, List.nodup_cons] at hnd
    have hnotin : ∀ x ∈ rest, (sib.id == x.id) = false := by
      intro x hx
      simp only [beq_eq_false_iff_ne, ne_eq]
      intro he
      exact hnd.1 (he ▸ List.mem_map_of_mem (fun y => y.id) hx)
    have hhead : (((sib :: rest).enumFrom n).find? (fun p => (p.2).id == sib.id))
        = some (n, sib) := by
      simp [List.enumFrom, List.find?]
    have htail : ∀ x ∈ rest,
        (((sib :: rest).enumFrom n).find? (fun p => (p.2).id == x.id))
          = ((rest.enumFrom (n + 1)).find? (fun p => (p.2).id == x.id)) := by
      intro x hx
      simp only [List.enumFrom, List.find?]
      rw [hnotin x hx]
    rw [List.map_cons, hhead]
    have hrestmap : rest.map (fun x =>
        match ((sib :: rest).enumFrom n).find? (fun p => (p.2).id == x.id) with
        | some p => (finalRec now p.1 p.2).orderIndex
        | none => x.orderIndex)
        = rest.map (fun x =>
            match (rest.enumFrom (n + 1)).find? (fun p => (p.2).id == x.id) with
            | some p => (finalRec now p.1 p.2).orderIndex
            | none => x.orderIndex) := by
      apply List.map_congr_left
      intro x hx
      rw [htail x hx]
    rw [hrestmap, ihl (n + 1) hnd.2]
    rw [List.length_cons, List.range_succ_eq_map, List.map_cons, List.map_map]
    dsimp only
    rw [finalRec_orderIndex]
    congr 1
    apply List.map_congr_left
    intro i _
    simp only [Function.comp]
    omega

theorem reorderNode_contiguous (s : StoreState) (nodeId newIndex now : Nat)
    (hnd : NodupIds s.nodes) (node : NodeRec)
    (hX : mapGet s.nodes nodeId = some node)
    (hcont : Contiguous s.nodes node.parentId) :
    Contiguous (reorderNode s nodeId newIndex now).nodes node.parentId := by
  cases hidx : (getChildren s.nodes node.parentId).findIdx? (fun n => n.id == nodeId) with
  | none =>
    have hre : reorderNode s nodeId newIndex now = s := by
      unfold reorderNode
      rw [hX]
      simp [hidx]
    rw [hre]
    exact hcont
  | some oldIndex =>
    by_cases heq : oldIndex = newIndex
    · have hre : reorderNode s nodeId newIndex now = s := by
        unfold reorderNode
        rw [hX]
        simp [hidx, heq]
      rw [hre]
      exact hcont
    · set siblings := getChildren s.nodes node.parentId with hsdef
      set removed := siblings.eraseIdx oldIndex with hremdef
      set arranged := removed.take newIndex ++ [node] ++ removed.drop newIndex with harrdef
      have hfold : reorderNode s nodeId newIndex now
          = arranged.enum.foldl (renumberStep now) s := by
        unfold reorderNode
        rw [hX]
        simp only [hidx, if_neg heq]
      set G := s.nodes.filter (fun n => n.parentId == node.parentId) with hGdef
      have hGsub : G.Sublist s.nodes := List.filter_sublist _
      have hsibperm : siblings.Perm G := sortByKey_perm _ _
      obtain ⟨hlt, hfidx⟩ := List.findIdx?_eq_some_iff_findIdx_eq.mp hidx
      have hw : List.findIdx (fun n => n.id == nodeId) siblings < siblings.length := by
        rw [hfidx]
        exact hlt
      have hp0 := @List.findIdx_getElem _ (fun n => n.id == nodeId) siblings hw
      have hget : siblings[oldIndex] = node := by
        have hpid : (siblings[oldIndex]).id = nodeId := by
          have h1 : siblings[List.findIdx (fun n => n.id == nodeId) siblings]
              = siblings[oldIndex] := by
            congr 1
          rw [h1] at hp0
          simpa using hp0
        have hmem : siblings[oldIndex] ∈ s.nodes :=
          hGsub.subset (hsibperm.subset (List.getElem_mem _))
        exact mapGet_unique hnd hX hmem hpid
      have hsplit : siblings = siblings.take oldIndex ++ node :: siblings.drop (oldIndex + 1) := by
        conv_lhs => rw [← List.take_append_drop oldIndex siblings]
        congr 1
        rw [← List.getElem_cons_drop siblings oldIndex hlt, hget]
      have hremsplit : removed = siblings.take oldIndex ++ siblings.drop (oldIndex + 1) := by
        rw [hremdef, List.eraseIdx_eq_take_drop_succ]
      have hnr : (node :: removed).Perm siblings := by
        rw [hremsplit]
        have h1 : (node :: (siblings.take oldIndex ++ siblings.drop (oldIndex + 1))).Perm
            (siblings.take oldIndex ++ node :: siblings.drop (oldIndex + 1)) :=
          List.perm_middle.symm
        rw [← hsplit] at h1
        exact h1
      have harrperm : arranged.Perm siblings := by
        have h1 : arranged.Perm (node :: (removed.take newIndex ++ removed.drop newIndex)) := by
          rw [harrdef, List.append_assoc]
          exact List.perm_middle
        rw [List.take_append_drop] at h1
        exact h1.trans hnr
      have harrG : arranged.Perm G := harrperm.trans hsibperm
      have harr_sub : ∀ x ∈ arranged, x ∈ s.nodes :=
        fun x hx => hGsub.subset (harrG.subset hx)
      have hG_ids : (G.map (fun n => n.id)).Nodup := nodupIds_of_sublist hGsub hnd
      have harr_ids : (arranged.map (fun n => n.id)).Nodup :=
        ((harrG.map (fun n => n.id)).nodup_iff).mpr hG_ids
      have hpairids : (arranged.enum.map (fun p => (p.2).id)).Nodup := by
        have he : arranged.enum.map (fun p => (p.2).id) = arranged.map (fun n => n.id) := by
          rw [show (fun p : Nat × NodeRec => (p.2).id)
              = (fun n : NodeRec => n.id) ∘ Prod.snd from rfl]
          rw [← List.map_map, List.enum_map_snd]
        rw [he]
        exact harr_ids
      have hpres : ∀ p ∈ arranged.enum, mapGet s.nodes (p.2).id = some p.2 := by
        intro p hp
        have hmem : p.2 ∈ arranged := by
          have h1 := List.mem_map_of_mem Prod.snd hp
          rwa [List.enum_map_snd] at h1
        exact mem_mapGet (harr_sub _ hmem) hnd
      have hnodes := renumber_fold_nodes now arranged.enum s hnd hpairids hpres
      set fF : NodeRec → NodeRec := fun r =>
          match arranged.enum.find? (fun p => (p.2).id == r.id) with
          | some p => finalRec now p.1 p.2
          | none => r with hfFdef
      have hFpar : ∀ r ∈ s.nodes, (fF r).parentId = r.parentId := by
        intro r hr
        rw [hfFdef]
        cases hf : arranged.enum.find? (fun p => (p.2).id == r.id) with
        | none =>
          dsimp only
          rw [hf]
        | some p =>
          have hpid : (p.2).id = r.id := by simpa using List.find?_some hf
          have hpmem : p.2 ∈ arranged := by
            have h1 := List.mem_map_of_mem Prod.snd (List.mem_of_find?_eq_some hf)
            rwa [List.enum_map_snd] at h1
          have hpr : p.2 = r :=
            mapGet_unique hnd (mem_mapGet hr hnd) (harr_sub _ hpmem) hpid
          dsimp only
          rw [hf, finalRec_parentId, hpr]
      have hfilter : (reorderNode s nodeId newIndex now).nodes.filter
            (fun n => n.parentId == node.parentId)
          = G.map fF := by
        rw [hfold, hnodes, List.filter_map, hGdef]
        congr 1
        apply List.filter_congr
        intro r hr
        show ((fF r).parentId == node.parentId) = (r.parentId == node.parentId)
        rw [hFpar r hr]
      have harr_map : arranged.map (fun x => (fF x).orderIndex)
          = List.range arranged.length := by
        calc arranged.map (fun x => (fF x).orderIndex)
            = arranged.map (fun x =>
                match (arranged.enumFrom 0).find? (fun p => (p.2).id == x.id) with
                | some p => (finalRec now p.1 p.2).orderIndex
                | none => x.orderIndex) := by
              apply List.map_congr_left
              intro x _
              rw [hfFdef]
              rw [show List.enumFrom 0 arranged = arranged.enum from rfl]
              dsimp only
              cases arranged.enum.find? (fun p => (p.2).id == x.id) <;> rfl
          _ = (List.range arranged.length).map (fun i => 0 + i) :=
              map_enumFrom_index now arranged 0 harr_ids
          _ = List.range arranged.length := by
              calc (List.range arranged.length).map (fun i => 0 + i)
                  = (List.range arranged.length).map id := by
                    apply List.map_congr_left
                    intro i _
                    exact Nat.zero_add i
                _ = List.range arranged.length := List.map_id _
      unfold Contiguous
      rw [hfilter, List.map_map, List.length_map]
      have hlen : G.length = arranged.length := harrG.length_eq.symm
      rw [hlen]
      have hperm2 : (G.map ((fun n : NodeRec => n.orderIndex) ∘ fF)).Perm
          (arranged.map ((fun n : NodeRec => n.orderIndex) ∘ fF)) :=
        (harrG.map ((fun n : NodeRec => n.orderIndex) ∘ fF)).symm
      refine hperm2.trans ?_
      have he : arranged.map ((fun n : NodeRec => n.orderIndex) ∘ fF)
          = List.range arranged.length := harr_map
      rw [he]

/-- Claim C2 (amended): after a createNode or reorderNode call the
touched sibling group's orderIndex values again form a contiguous
0..n-1 permutation (given the group was contiguous before); deleteNode
however does not renumber the remaining siblings: the surviving node
list is a sublist of the previous one (no surviving record is edited),
so the touched group stays contiguous only when the deleted node held
the highest orderIndex. -/
theorem sibling_group_contiguity :
    (∀ (s : StoreState) (args : CreateArgs) (newId now : Nat),
      (∀ x ∈ s.nodes, x.id ≠ newId) →
      Contiguous s.nodes args.parentId →
      Contiguous (createNode s args newId now).2.nodes args.parentId)
    ∧ (∀ (s : StoreState) (nodeId newIndex now : Nat) (node : NodeRec),
        NodupIds s.nodes →
        mapGet s.nodes nodeId = some node →
        Contiguous s.nodes node.parentId →
        Contiguous (reorderNode s nodeId newIndex now).nodes node.parentId)
    ∧ (∀ (fuel : Nat) (s : StoreState) (a : Nat) (s' : StoreState),
        deleteNodeF fuel s a = some s' → s'.nodes.Sublist s.nodes) :=
  ⟨fun s args newId now hf hc => createNode_contiguous s args newId now hf hc,
   fun s nodeId newIndex now node hnd hX hc =>
     reorderNode_contiguous s nodeId newIndex now hnd node hX hc,
   fun fuel s a s' h => (deleteNodeF_storeSub fuel s a s' h).1⟩

theorem sibling_group_contiguity_witness :
    ((∀ x ∈ storeAB.nodes, x.id ≠ 3) ∧ Contiguous storeAB.nodes none
      ∧ Contiguous (createNode storeAB { name := "C", ntype := .folder } 3 7).2.nodes none)
    ∧ (NodupIds storeAB.nodes
      ∧ mapGet storeAB.nodes 2 = some (mkNode 2 none .folder "B" 1)
      ∧ Contiguous storeAB.nodes (mkNode 2 none .folder "B" 1).parentId
      ∧ Contiguous (reorderNode storeAB 2 0 7).nodes (mkNode 2 none .folder "B" 1).parentId)
    ∧ (deleteNodeF 5 storeTree 1 = some ((deleteNodeF 5 storeTree 1).getD storeTree)
      ∧ ((deleteNodeF 5 storeTree 1).getD storeTree).nodes.Sublist storeTree.nodes) :=
  ⟨⟨by decide, by decide,
    sibling_group_contiguity.1 storeAB { name := "C", ntype := .folder } 3 7
      (by decide) (by decide)⟩,
   ⟨by decide, by decide, by decide,
    sibling_group_contiguity.2.1 storeAB 2 0 7 (mkNode 2 none .folder "B" 1)
      (by decide) (by decide) (by decide)⟩,
   ⟨by decide,
    sibling_group_contiguity.2.2 5 storeTree 1 _ (by decide)⟩⟩

/-- Claim C2, counterexample to the claim as stated: deleting the first
of two contiguous root siblings leaves the survivor at orderIndex 1, so
the touched group is no longer a contiguous 0..n-1 sequence. -/
theorem deleteNode_gap_counterexample :
    Contiguous storeAB.nodes none
    ∧ (deleteNodeF 3 storeAB 1).map (fun t => t.nodes.map (fun n => (n.id, n.orderIndex)))
        = some [(2, 1)]
    ∧ (deleteNodeF 3 storeAB 1).map (fun t => decide (Contiguous t.nodes none))
        = some false := by
  decide

/-! ### Termination of the parentId walks -/

theorem pathT_none_walk (m : List NodeRec) :
    ∀ f (n : NodeRec), mapGet m n.id = some n →
      pathT m f (some n) = none →
      ∃ b nb, pIter m f n.id = some b ∧ mapGet m b = some nb := by
  intro f
  induction f with
  | zero =>
    intro n hn _
    exact ⟨n.id, n, by simp [pIter], hn⟩
  | succ f ih =>
    intro n hn hnone
    simp only [pathT] at hnone
    cases harg : n.parentId.bind (fun p => mapGet m p) with
    | none => rw [harg] at hnone; simp [pathT] at hnone
    | some n' =>
      rw [harg] at hnone
      cases hpar : n.parentId with
      | none => rw [hpar] at harg; simp at harg
      | some p =>
        rw [hpar] at harg
        simp only [Option.some_bind] at harg
        have hid : n'.id = p := mapGet_id harg
        have hn' : mapGet m n'.id = some n' := by rw [hid]; exact harg
        have hnone' : pathT m f (some n') = none := by
          cases hx : pathT m f (some n') with
          | none => rfl
          | some l => rw [hx] at hnone; simp at hnone
        obtain ⟨b, nb, hw, hb⟩ := ih n' hn' hnone'
        refine ⟨b, nb, ?_, hb⟩
        simp only [pIter]
        rw [show pnext m n.id = some p by simp [pnext, hn, hpar]]
        rw [hid] at hw
        simpa using hw

theorem isDescT_none_walk (m : List NodeRec) (anc : Nat) :
    ∀ f p, isDescT m (f + 1) (some p) anc = none →
      ∃ b nb, pIter m f p = some b ∧ mapGet m b = some nb := by
  intro f
  induction f with
  | zero =>
    intro p hnone
    by_cases hp : p = anc
    · simp [isDescT, hp] at hnone
    · simp only [isDescT, if_neg (show ¬(some p = some anc) by simpa using hp)] at hnone
      cases hg : mapGet m p with
      | none => rw [hg] at hnone; simp at hnone
      | some n => exact ⟨p, n, by simp [pIter], hg⟩
  | succ f ih =>
    intro p hnone
    by_cases hp : p = anc
    · simp [isDescT, hp] at hnone
    · have hne : ¬(some p = some anc) := by simpa using hp
      cases hg : mapGet m p with
      | none =>
        have hstep : isDescT m (f + 1 + 1) (some p) anc = some false := by
          simp only [isDescT, if_neg hne, hg]
        rw [hstep] at hnone
        simp at hnone
      | some n =>
        cases hpar : n.parentId with
        | none =>
          have hstep : isDescT m (f + 1 + 1) (some p) anc = some false := by
            simp only [isDescT, if_neg hne, hg, hpar]
            rfl
          rw [hstep] at hnone
          simp at hnone
        | some q =>
          have hstep : isDescT m (f + 1 + 1) (some p) anc
              = isDescT m (f + 1) (some q) anc := by
            simp only [isDescT, if_neg hne, hg, hpar]
          rw [hstep] at hnone
          obtain ⟨b, nb, hw, hb⟩ := ih q hnone
          refine ⟨b, nb, ?_, hb⟩
          simp only [pIter]
          rw [show pnext m p = some q by simp [pnext, hg, hpar]]
          simpa using hw

/-- Claim C10: on a store whose parent chains are acyclic, the
parentId-following recursions of getNodePath and isDescendant terminate:
fuel one larger than the number of nodes never runs out. -/
theorem getNodePath_isDescendant_terminate (m : List NodeRec) (hac : Acyclic m) :
    (∀ a, (pathT m (m.length + 1) (mapGet m a)).isSome)
    ∧ (∀ pd anc, (isDescT m (m.length + 1) pd anc).isSome) := by
  constructor
  · intro a
    cases hg : mapGet m a with
    | none => simp [pathT]
    | some n =>
      cases hx : pathT m (m.length + 1) (some n) with
      | some l => simp
      | none =>
        exfalso
        have hn : mapGet m n.id = some n := by rw [mapGet_id hg]; exact hg
        obtain ⟨b, nb, hw, hb⟩ := pathT_none_walk m (m.length + 1) n hn hx
        apply cycle_of_long_walk (m := m) (a := n.id) ?_ hac
        intro j hj
        by_cases hje : j = m.length + 1
        · exact ⟨b, nb, hje ▸ hw, hb⟩
        · exact pIter_lookup hw (by omega)
  · intro pd anc
    cases pd with
    | none => simp [isDescT]
    | some p =>
      cases hx : isDescT m (m.length + 1) (some p) anc with
      | some b => simp
      | none =>
        exfalso
        obtain ⟨b, nb, hw, hb⟩ := isDescT_none_walk m anc m.length p hx
        apply cycle_of_long_walk (m := m) (a := p) ?_ hac
        intro j hj
        by_cases hje : j = m.length
        · exact ⟨b, nb, hje ▸ hw, hb⟩
        · exact pIter_lookup hw (by omega)

theorem getNodePath_isDescendant_terminate_witness :
    Acyclic storeTree.nodes
    ∧ ((∀ a, (pathT storeTree.nodes (storeTree.nodes.length + 1)
          (mapGet storeTree.nodes a)).isSome)
       ∧ (∀ pd anc, (isDescT storeTree.nodes (storeTree.nodes.length + 1) pd anc).isSome)) :=
  ⟨acyclic_of_rankOkB storeTree.nodes (fun i => i) (by decide),
   getNodePath_isDescendant_terminate storeTree.nodes
     (acyclic_of_rankOkB storeTree.nodes (fun i => i) (by decide))⟩

/-! ### C1: the cycle guard and preservation of acyclicity -/

theorem pnext_mapSet_self (m : List NodeRec) (u : NodeRec) :
    pnext (mapSet m u) u.id = u.parentId := by
  unfold pnext
  rw [mapGet_mapSet_self]
  rfl

theorem pnext_mapSet_ne {m : List NodeRec} {u : NodeRec} {a : Nat} (hne : a ≠ u.id) :
    pnext (mapSet m u) a = pnext m a := by
  unfold pnext
  rw [mapGet_mapSet_ne hne]

theorem pIter_transfer_avoid {m m' : List NodeRec} {X : Nat}
    (hpn : ∀ a, a ≠ X → pnext m' a = pnext m a) :
    ∀ k a b, pIter m' k a = some b → (∀ j, j < k → pIter m' j a ≠ some X) →
      pIter m k a = some b := by
  intro k
  induction k with
  | zero => intro a b h _; simpa [pIter] using h
  | succ k ih =>
    intro a b h havoid
    have haX : a ≠ X := by
      intro he
      exact havoid 0 (Nat.succ_pos k) (by simp [pIter, he])
    simp only [pIter] at h ⊢
    rw [hpn a haX] at h
    cases hp : pnext m a with
    | none => rw [hp] at h; simp at h
    | some c =>
      rw [hp] at h
      simp only [Option.some_bind] at h ⊢
      apply ih c b h
      intro j hj hcX
      apply havoid (j + 1) (Nat.succ_lt_succ hj)
      simp only [pIter]
      rw [hpn a haX, hp]
      simpa using hcX

theorem pIter_first_hit {m' : List NodeRec} {X a k : Nat}
    (h : pIter m' k a = some X) :
    ∃ j, j ≤ k ∧ pIter m' j a = some X ∧ ∀ i, i < j → pIter m' i a ≠ some X := by
  have hex : ∃ j, pIter m' j a = some X := ⟨k, h⟩
  exact ⟨Nat.find hex, Nat.find_min' hex h, Nat.find_spec hex,
    fun i hi => Nat.find_min hex hi⟩

theorem pIter_cycle_rotate {m' : List NodeRec} {a X k j : Nat}
    (hcyc : pIter m' k a = some a) (hjk : j ≤ k) (hX : pIter m' j a = some X) :
    pIter m' k X = some X := by
  have h1 : pIter m' (j + (k - j)) a = (pIter m' j a).bind (pIter m' (k - j)) :=
    pIter_add m' j (k - j) a
  rw [Nat.add_sub_cancel' hjk, hcyc, hX] at h1
  simp only [Option.some_bind] at h1
  have h2 : pIter m' ((k - j) + j) X = (pIter m' (k - j) X).bind (pIter m' j) :=
    pIter_add m' (k - j) j X
  rw [Nat.sub_add_cancel hjk, ← h1] at h2
  rw [h2]
  simpa using hX

theorem acyclic_mapSet (m : List NodeRec) (u : NodeRec) (hac : Acyclic m)
    (hguard : ∀ q, u.parentId = some q → ∀ j, pIter m j q ≠ some u.id) :
    Acyclic (mapSet m u) := by
  intro a k hk hcyc
  have hpn : ∀ b, b ≠ u.id → pnext (mapSet m u) b = pnext m b :=
    fun b hb => pnext_mapSet_ne hb
  by_cases hhit : ∃ j, j ≤ k ∧ pIter (mapSet m u) j a = some u.id
  · obtain ⟨j, hjk, hXj⟩ := hhit
    have hcycX : pIter (mapSet m u) k u.id = some u.id := pIter_cycle_rotate hcyc hjk hXj
    obtain ⟨k', rfl⟩ : ∃ k', k = k' + 1 := ⟨k - 1, by omega⟩
    simp only [pIter] at hcycX
    rw [pnext_mapSet_self] at hcycX
    cases hq : u.parentId with
    | none => rw [hq] at hcycX; simp at hcycX
    | some q =>
      rw [hq] at hcycX
      simp only [Option.some_bind] at hcycX
      obtain ⟨j', hj'le, hj'X, hmin⟩ := pIter_first_hit hcycX
      exact hguard q hq j' (pIter_transfer_avoid hpn j' q u.id hj'X hmin)
  · push_neg at hhit
    exact hac a k hk
      (pIter_transfer_avoid hpn k a a hcyc (fun j hj => hhit j (le_of_lt hj)))

theorem moveNode_state_acyclic (s : StoreState) (nid : Nat) (np : Option Nat) (now : Nat)
    (hac : Acyclic s.nodes) : Acyclic ((moveNode s nid np now).state).nodes := by
  cases hX : mapGet s.nodes nid with
  | none =>
    have h : moveNode s nid np now = .noNode s := by unfold moveNode; rw [hX]
    rw [h]; exact hac
  | some nX =>
    cases hb : isDescB s.nodes np nid with
    | true =>
      have h : moveNode s nid np now = .cycleError s := by
        unfold moveNode; rw [hX, hb]; rfl
      rw [h]; exact hac
    | false =>
      obtain ⟨s', hmv, hnodes, _, _, _⟩ := moveNode_success now hX hb
      rw [hmv]
      show Acyclic s'.nodes
      rw [hnodes]
      apply acyclic_mapSet _ _ hac
      intro q hq j hw
      have hid : nX.id = nid := mapGet_id hX
      have hqp : np = some q := by simpa [movedRec] using hq
      have hwid : pIter s.nodes j q = some nid := by
        simpa [movedRec, hid] using hw
      rw [hqp] at hb
      exact isDescB_false_no_reach hb j hwid

theorem applyMoves_acyclic (moves : List (Nat × Option Nat × Nat)) :
    ∀ s : StoreState, Acyclic s.nodes → Acyclic (applyMoves s moves).nodes := by
  induction moves with
  | nil => intro s h; simpa [applyMoves] using h
  | cons mv rest ih =>
    intro s h
    obtain ⟨nid, np, now⟩ := mv
    simp only [applyMoves]
    exact ih _ (moveNode_state_acyclic s nid np now h)

/-- Claim C1: when P is A itself or one of A's descendants (A reachable
from P by repeated parentId traversal), moveNode(A, P) throws the cycle
error before any mutation, so the whole state — node map, rootNodes and
durable storage — is exactly the state before the call; consequently
every sequence of moveNode calls started from an acyclic tree keeps the
parent links acyclic: no node ever becomes reachable from itself. -/
theorem moveNode_cycle_invariant (s : StoreState) (A P now : Nat) (nA : NodeRec)
    (moves : List (Nat × Option Nat × Nat))
    (hA : mapGet s.nodes A = some nA)
    (hin : InSubtree s.nodes P A)
    (hac : Acyclic s.nodes) :
    moveNode s A (some P) now = MoveResult.cycleError s
    ∧ Acyclic (applyMoves s moves).nodes := by
  constructor
  · have hguard : isDescB s.nodes (some P) A = true := isDescB_true_of_reach hin
    unfold moveNode
    rw [hA, hguard]
    rfl
  · exact applyMoves_acyclic moves s hac

theorem moveNode_cycle_invariant_witness :
    mapGet storePQ.nodes 1 = some (mkNode 1 none .folder "P" 0)
    ∧ InSubtree storePQ.nodes 3 1
    ∧ Acyclic storePQ.nodes
    ∧ (moveNode storePQ 1 (some 3) 9 = MoveResult.cycleError storePQ
       ∧ Acyclic (applyMoves storePQ [(4, some 2, 9)]).nodes) :=
  ⟨by decide,
   Or.inr ⟨1, Nat.one_pos, by decide⟩,
   acyclic_of_rankOkB storePQ.nodes (fun i => i) (by decide),
   moveNode_cycle_invariant storePQ 1 3 9 (mkNode 1 none .folder "P" 0) [(4, some 2, 9)]
     (by decide)
     (Or.inr ⟨1, Nat.one_pos, by decide⟩)
     (acyclic_of_rankOkB storePQ.nodes (fun i => i) (by decide))⟩

/-! ### C4: cascade completeness of deleteNode -/

theorem mapGet_none_mono {m' m : List NodeRec} (hsub : m'.Sublist m) {a : Nat}
    (h : mapGet m a = none) : mapGet m' a = none :=
  mapGet_eq_none_iff.mpr (fun n hn => mapGet_eq_none_iff.mp h n (hsub.subset hn))

theorem contentGet_none_mono {l' l : List ContentRec} (hsub : l'.Sublist l) {a : Nat}
    (h : contentGet l a = none) : contentGet l' a = none :=
  contentGet_eq_none_iff.mpr (fun c hc => contentGet_eq_none_iff.mp h c (hsub.subset hc))

theorem deadAll_mono {t' t : StoreState} {b : Nat} (hsub : StoreSub t' t)
    (h : DeadAll t b) : DeadAll t' b :=
  ⟨mapGet_none_mono hsub.1 h.1, mapGet_none_mono hsub.2.1 h.2.1,
   contentGet_none_mono hsub.2.2 h.2.2⟩

theorem optFold_storeSub (fuel : Nat) :
    ∀ ids s t, optFold (deleteNodeF fuel) s ids = some t → StoreSub t s := by
  intro ids
  induction ids with
  | nil =>
    intro s t h
    simp only [optFold, Option.some_inj] at h
    exact h ▸ storeSub_refl s
  | cons c cs ih =>
    intro s t h
    simp only [optFold] at h
    cases hd : deleteNodeF fuel s c with
    | none => rw [hd] at h; cases h
    | some s1 =>
      rw [hd] at h
      exact storeSub_trans (ih s1 t h) (deleteNodeF_storeSub fuel s c s1 hd)

theorem deleteFinish_deadAll (s : StoreState) (node : NodeRec) :
    DeadAll (deleteFinish s node) node.id := by
  refine ⟨?_, ?_, ?_⟩
  · show mapGet (mapDelete s.nodes node.id) node.id = none
    rw [mapGet_mapDelete]
    simp
  · show mapGet (mapDelete s.dbNodes node.id) node.id = none
    rw [mapGet_mapDelete]
    simp
  · show contentGet (contentDelete s.dbContents node.id) node.id = none
    rw [contentGet_contentDelete]
    simp

theorem inSubtree_trans {m : List NodeRec} {b c d : Nat}
    (h1 : InSubtree m b c) (h2 : InSubtree m c d) : InSubtree m b d := by
  have h1' : b = c ∨ ∃ k, 0 < k ∧ pIter m k b = some c := h1
  have h2' : c = d ∨ ∃ k, 0 < k ∧ pIter m k c = some d := h2
  rcases h1' with rfl | ⟨k1, hk1, hw1⟩
  · exact h2
  · rcases h2' with rfl | ⟨k2, hk2, hw2⟩
    · exact Or.inr ⟨k1, hk1, hw1⟩
    · refine Or.inr ⟨k1 + k2, by omega, ?_⟩
      rw [pIter_add, hw1]
      simpa using hw2

theorem inSubtree_mono {m' m : List NodeRec} (hsub : m'.Sublist m)
    (hnd : NodupIds m) {b c : Nat} (h : InSubtree m' b c) : InSubtree m b c := by
  have h' : b = c ∨ ∃ k, 0 < k ∧ pIter m' k b = some c := h
  rcases h' with rfl | ⟨k, hk, hw⟩
  · exact Or.inl rfl
  · exact Or.inr ⟨k, hk,
      pIter_mono (fun a r hr => mapGet_mono_of_sublist hsub hnd hr) k b c hw⟩

theorem mem_getChildren_iff {m : List NodeRec} {pid : Option Nat} {n : NodeRec} :
    n ∈ getChildren m pid ↔ n ∈ m ∧ n.parentId = pid := by
  unfold getChildren
  have hperm := sortByKey_perm (fun n : NodeRec => n.orderIndex)
    (List.filter (fun n => n.parentId == pid) m)
  rw [hperm.mem_iff]
  simp [List.mem_filter]

theorem pIter_transfer_alive {m' m : List NodeRec} (hsub : m'.Sublist m)
    (hnd : NodupIds m) :
    ∀ k b c, pIter m k b = some c →
      (∀ j, j < k → ∀ x, pIter m j b = some x → (mapGet m' x).isSome) →
      pIter m' k b = some c := by
  intro k
  induction k with
  | zero => intro b c h _; simpa [pIter] using h
  | succ k ih =>
    intro b c h halive
    have hb' := halive 0 (Nat.succ_pos k) b (by simp [pIter])
    obtain ⟨nb, hnb⟩ := Option.isSome_iff_exists.mp hb'
    have hnbt : mapGet m b = some nb := mapGet_mono_of_sublist hsub hnd hnb
    simp only [pIter] at h ⊢
    have hpt : pnext m b = nb.parentId := by unfold pnext; rw [hnbt]; rfl
    have hpt' : pnext m' b = nb.parentId := by unfold pnext; rw [hnb]; rfl
    rw [hpt] at h
    rw [hpt']
    cases hq : nb.parentId with
    | none => rw [hq] at h; simp at h
    | some q =>
      rw [hq] at h
      simp only [Option.some_bind] at h ⊢
      apply ih q c h
      intro j hj x hx
      apply halive (j + 1) (Nat.succ_lt_succ hj) x
      simp only [pIter]
      rw [hpt, hq]
      simpa using hx

theorem pIter_penultimate {m : List NodeRec} {k b c : Nat} (hk : 0 < k)
    (hw : pIter m k b = some c) :
    ∃ cstar n, pIter m (k - 1) b = some cstar ∧ mapGet m cstar = some n
      ∧ n.parentId = some c := by
  obtain ⟨cstar, hcs⟩ := pIter_isSome_of_le hw (Nat.sub_le k 1)
  have he : pIter m ((k - 1) + 1) b = (pIter m (k - 1) b).bind (pIter m 1) :=
    pIter_add m (k - 1) 1 b
  rw [Nat.sub_add_cancel hk, hw, hcs] at he
  simp only [Option.some_bind] at he
  have he' : pIter m 1 cstar = some c := he.symm
  simp only [pIter] at he'
  cases hp : pnext m cstar with
  | none => rw [hp] at he'; simp at he'
  | some d =>
    rw [hp] at he'
    simp only [Option.some_bind, pIter, Option.some_inj] at he'
    unfold pnext at hp
    cases hg : mapGet m cstar with
    | none => rw [hg] at hp; simp at hp
    | some n =>
      rw [hg] at hp
      simp only [Option.some_bind] at hp
      exact ⟨cstar, n, hcs, hg, by rw [hp, he']⟩

theorem deleteNodeF_dead_or :
    ∀ fuel t c t', deleteNodeF fuel t c = some t' →
      ∀ b, mapGet t'.nodes b = none → mapGet t.nodes b = none ∨ DeadAll t' b := by
  intro fuel
  induction fuel with
  | zero => intro t c t' h; simp [deleteNodeF] at h
  | succ f ih =>
    have hfold : ∀ ids t t1, optFold (deleteNodeF f) t ids = some t1 →
        ∀ b, mapGet t1.nodes b = none → mapGet t.nodes b = none ∨ DeadAll t1 b := by
      intro ids
      induction ids with
      | nil =>
        intro t t1 h b hb
        simp only [optFold, Option.some_inj] at h
        subst h
        exact Or.inl hb
      | cons c cs ihc =>
        intro t t1 h b hb
        simp only [optFold] at h
        cases hd : deleteNodeF f t c with
        | none => rw [hd] at h; cases h
        | some t2 =>
          rw [hd] at h
          rcases ihc t2 t1 h b hb with h2 | h2
          · rcases ih t c t2 hd b h2 with h3 | h3
            · exact Or.inl h3
            · exact Or.inr (deadAll_mono (optFold_storeSub f cs t2 t1 h) h3)
          · exact Or.inr h2
    intro t c t' h b hb
    simp only [deleteNodeF] at h
    cases hg : mapGet t.nodes c with
    | none =>
      rw [hg] at h
      simp only [Option.some_inj] at h
      subst h
      exact Or.inl hb
    | some nc =>
      rw [hg] at h
      cases hf : optFold (deleteNodeF f) t ((getChildren t.nodes (some c)).map (fun n => n.id)) with
      | none => rw [hf] at h; cases h
      | some t1 =>
        rw [hf] at h
        simp only [Option.some_inj] at h
        subst h
        by_cases hbc : b = nc.id
        · subst hbc
          exact Or.inr (deleteFinish_deadAll t1 nc)
        · have hb1 : mapGet t1.nodes b = none := by
            have heq : mapGet (deleteFinish t1 nc).nodes b = mapGet t1.nodes b := by
              show mapGet (mapDelete t1.nodes nc.id) b = _
              rw [mapGet_mapDelete, if_neg hbc]
            rwa [heq] at hb
          rcases hfold _ t t1 hf b hb1 with h2 | h2
          · exact Or.inl h2
          · exact Or.inr (deadAll_mono (deleteFinish_storeSub t1 nc) h2)

theorem deleteNodeF_frame :
    ∀ fuel t c t', NodupIds t.nodes → deleteNodeF fuel t c = some t' →
      ∀ b, mapGet t'.nodes b = none →
        mapGet t.nodes b = none ∨ InSubtree t.nodes b c := by
  intro fuel
  induction fuel with
  | zero => intro t c t' _ h; simp [deleteNodeF] at h
  | succ f ih =>
    intro t c t' hnd h b hb
    have hfold : ∀ ids t_i t1, NodupIds t_i.nodes →
        optFold (deleteNodeF f) t_i ids = some t1 →
        ∀ b, mapGet t1.nodes b = none →
          mapGet t_i.nodes b = none ∨ ∃ c' ∈ ids, InSubtree t_i.nodes b c' := by
      intro ids
      induction ids with
      | nil =>
        intro t_i t1 _ h b hb
        simp only [optFold, Option.some_inj] at h
        subst h
        exact Or.inl hb
      | cons c1 cs ihc =>
        intro t_i t1 hnd_i h b hb
        simp only [optFold] at h
        cases hd : deleteNodeF f t_i c1 with
        | none => rw [hd] at h; cases h
        | some t2 =>
          rw [hd] at h
          have hsub2 : t2.nodes.Sublist t_i.nodes := (deleteNodeF_storeSub f t_i c1 t2 hd).1
          rcases ihc t2 t1 (nodupIds_of_sublist hsub2 hnd_i) h b hb with h2 | ⟨c', hc', hins⟩
          · rcases ih t_i c1 t2 hnd_i hd b h2 with h3 | h3
            · exact Or.inl h3
            · exact Or.inr ⟨c1, List.mem_cons_self c1 cs, h3⟩
          · exact Or.inr ⟨c', List.mem_cons_of_mem c1 hc', inSubtree_mono hsub2 hnd_i hins⟩
    simp only [deleteNodeF] at h
    cases hg : mapGet t.nodes c with
    | none =>
      rw [hg] at h
      simp only [Option.some_inj] at h
      subst h
      exact Or.inl hb
    | some nc =>
      rw [hg] at h
      cases hf : optFold (deleteNodeF f) t ((getChildren t.nodes (some c)).map (fun n => n.id)) with
      | none => rw [hf] at h; cases h
      | some t1 =>
        rw [hf] at h
        simp only [Option.some_inj] at h
        subst h
        by_cases hbc : b = c
        · exact Or.inr (Or.inl hbc)
        · have hb1 : mapGet t1.nodes b = none := by
            have heq : mapGet (deleteFinish t1 nc).nodes b = mapGet t1.nodes b := by
              show mapGet (mapDelete t1.nodes nc.id) b = _
              rw [mapGet_mapDelete, if_neg (fun he => hbc (he.trans (mapGet_id hg)))]
            rwa [heq] at hb
          rcases hfold _ t t1 hnd hf b hb1 with h2 | ⟨c', hc', hins⟩
          · exact Or.inl h2
          · obtain ⟨n', hn'mem, hn'id⟩ := List.mem_map.mp hc'
            have hsplit := mem_getChildren_iff.mp hn'mem
            have hgn' : mapGet t.nodes c' = some n' := by
              rw [← hn'id]
              exact mem_mapGet hsplit.1 hnd
            have hstep : InSubtree t.nodes c' c := by
              refine Or.inr ⟨1, Nat.one_pos, ?_⟩
              simp only [pIter]
              rw [show pnext t.nodes c' = some c by
                unfold pnext; rw [hgn']; simpa using hsplit.2]
              rfl
            exact Or.inr (inSubtree_trans hins hstep)

theorem deleteNodeF_subtree_dead :
    ∀ fuel t c t' nc, NodupIds t.nodes →
      deleteNodeF fuel t c = some t' → mapGet t.nodes c = some nc →
      ∀ b, InSubtree t.nodes b c → mapGet t'.nodes b = none := by
  intro fuel
  induction fuel with
  | zero => intro t c t' nc _ h; simp [deleteNodeF] at h
  | succ f ih =>
    intro t c t' nc hnd h hg b hb
    have hfold : ∀ ids pre t_i t1,
        optFold (deleteNodeF f) t_i ids = some t1 →
        t_i.nodes.Sublist t.nodes →
        (∀ c' ∈ ids, (mapGet t.nodes c').isSome) →
        (∀ x, mapGet t_i.nodes x = none →
            mapGet t.nodes x = none ∨ ∃ c'' ∈ pre, InSubtree t.nodes x c'') →
        (∀ c'' ∈ pre, ∀ y, InSubtree t.nodes y c'' → mapGet t_i.nodes y = none) →
        (t1.nodes.Sublist t.nodes
         ∧ (∀ x, mapGet t1.nodes x = none →
              mapGet t.nodes x = none ∨ ∃ c'' ∈ pre ++ ids, InSubtree t.nodes x c'')
         ∧ (∀ c'' ∈ pre ++ ids, ∀ y, InSubtree t.nodes y c'' →
              mapGet t1.nodes y = none)) := by
      intro ids
      induction ids with
      | nil =>
        intro pre t_i t1 h hsub _ hINV hDEAD
        simp only [optFold, Option.some_inj] at h
        subst h
        rw [List.append_nil]
        exact ⟨hsub, hINV, hDEAD⟩
      | cons c1 cs ihids =>
        intro pre t_i t1 h hsub hrest hINV hDEAD
        simp only [optFold] at h
        cases hd : deleteNodeF f t_i c1 with
        | none => rw [hd] at h; cases h
        | some t2 =>
          rw [hd] at h
          have hsub2i : t2.nodes.Sublist t_i.nodes := (deleteNodeF_storeSub f t_i c1 t2 hd).1
          have hsub2 : t2.nodes.Sublist t.nodes := hsub2i.trans hsub
          have hnd_i : NodupIds t_i.nodes := nodupIds_of_sublist hsub hnd
          have hc1 : (mapGet t.nodes c1).isSome := hrest c1 (List.mem_cons_self c1 cs)
          have hkill : ∀ y, InSubtree t.nodes y c1 → mapGet t2.nodes y = none := by
            intro y hy
            have hy' : y = c1 ∨ ∃ k, 0 < k ∧ pIter t.nodes k y = some c1 := hy
            rcases hy' with rfl | ⟨k, hk, hw⟩
            · cases halive : mapGet t_i.nodes y with
              | some ny => exact ih t_i y t2 ny hnd_i hd halive y (Or.inl rfl)
              | none => exact mapGet_none_mono hsub2i halive
            · by_cases hall : ∀ j, j ≤ k → ∀ x, pIter t.nodes j y = some x →
                  (mapGet t_i.nodes x).isSome
              · have hw' : pIter t_i.nodes k y = some c1 :=
                  pIter_transfer_alive hsub hnd k y c1 hw
                    (fun j hj x hx => hall j (le_of_lt hj) x hx)
                have hc1i : (mapGet t_i.nodes c1).isSome := hall k (le_refl k) c1 hw
                obtain ⟨nc1, hnc1⟩ := Option.isSome_iff_exists.mp hc1i
                exact ih t_i c1 t2 nc1 hnd_i hd hnc1 y (Or.inr ⟨k, hk, hw'⟩)
              · push_neg at hall
                obtain ⟨j, hjk, x, hx, hxdead⟩ := hall
                have hxdead' : mapGet t_i.nodes x = none :=
                  Option.not_isSome_iff_eq_none.mp hxdead
                have hxt : mapGet t.nodes x ≠ none := by
                  rcases Nat.lt_or_ge j k with hlt | hge
                  · obtain ⟨c0, n0, hc0, hn0⟩ := pIter_lookup hw hlt
                    rw [hx] at hc0
                    have hxc0 : c0 = x := Option.some_inj.mp hc0.symm
                    rw [← hxc0, hn0]
                    simp
                  · have hje : j = k := Nat.le_antisymm hjk hge
                    have hxc1 : x = c1 := by
                      rw [hje, hw] at hx
                      exact (Option.some_inj.mp hx).symm
                    rw [hxc1]
                    intro hcon
                    rw [hcon] at hc1
                    simp at hc1
                rcases hINV x hxdead' with hdt | ⟨c'', hc''mem, hins⟩
                · exact absurd hdt hxt
                · have hyx : InSubtree t.nodes y x := by
                    rcases Nat.eq_zero_or_pos j with hz | hpos
                    · rw [hz] at hx
                      simp only [pIter, Option.some_inj] at hx
                      exact Or.inl hx
                    · exact Or.inr ⟨j, hpos, hx⟩
                  exact mapGet_none_mono hsub2i
                    (hDEAD c'' hc''mem y (inSubtree_trans hyx hins))
          have hINV2 : ∀ x, mapGet t2.nodes x = none →
              mapGet t.nodes x = none ∨ ∃ c'' ∈ pre ++ [c1], InSubtree t.nodes x c'' := by
            intro x hx2
            rcases deleteNodeF_frame f t_i c1 t2 hnd_i hd x hx2 with hxi | hins
            · rcases hINV x hxi with hdt | ⟨c'', hm, hi⟩
              · exact Or.inl hdt
              · exact Or.inr ⟨c'', List.mem_append_left _ hm, hi⟩
            · exact Or.inr ⟨c1, List.mem_append_right _ (List.mem_singleton.mpr rfl),
                inSubtree_mono hsub hnd hins⟩
          have hDEAD2 : ∀ c'' ∈ pre ++ [c1], ∀ y, InSubtree t.nodes y c'' →
              mapGet t2.nodes y = none := by
            intro c'' hm y hy
            rcases List.mem_append.mp hm with hm' | hm'
            · exact mapGet_none_mono hsub2i (hDEAD c'' hm' y hy)
            · have he : c'' = c1 := List.mem_singleton.mp hm'
              subst he
              exact hkill y hy
          have hrest2 : ∀ c' ∈ cs, (mapGet t.nodes c').isSome :=
            fun c' hm => hrest c' (List.mem_cons_of_mem c1 hm)
          have hres := ihids (pre ++ [c1]) t2 t1 h hsub2 hrest2 hINV2 hDEAD2
          rw [List.append_assoc, List.singleton_append] at hres
          exact hres
    simp only [deleteNodeF] at h
    rw [hg] at h
    cases hf : optFold (deleteNodeF f) t ((getChildren t.nodes (some c)).map (fun n => n.id)) with
    | none => rw [hf] at h; cases h
    | some t1 =>
      rw [hf] at h
      simp only [Option.some_inj] at h
      subst h
      have hrest0 : ∀ c' ∈ (getChildren t.nodes (some c)).map (fun n => n.id),
          (mapGet t.nodes c').isSome := by
        intro c' hm
        obtain ⟨n', hmem, hid⟩ := List.mem_map.mp hm
        have h1 := mem_getChildren_iff.mp hmem
        rw [← hid, mem_mapGet h1.1 hnd]
        rfl
      have hres := hfold ((getChildren t.nodes (some c)).map (fun n => n.id)) [] t t1 hf
        (List.Sublist.refl _) hrest0 (fun x hx => Or.inl hx)
        (fun c'' hm => absurd hm (List.not_mem_nil c''))
      by_cases hbc : b = c
      · subst hbc
        show mapGet (mapDelete t1.nodes nc.id) b = none
        rw [mapGet_mapDelete, if_pos (mapGet_id hg).symm]
      · have hb' : b = c ∨ ∃ k, 0 < k ∧ pIter t.nodes k b = some c := hb
        rcases hb' with he | ⟨k, hk, hw⟩
        · exact absurd he hbc
        · obtain ⟨cstar, n', hcs, hgn, hpar⟩ := pIter_penultimate hk hw
          have hchild : n' ∈ getChildren t.nodes (some c) :=
            mem_getChildren_iff.mpr ⟨mapGet_mem hgn, hpar⟩
          have hcsmem : cstar ∈ (getChildren t.nodes (some c)).map (fun n => n.id) :=
            List.mem_map.mpr ⟨n', hchild, mapGet_id hgn⟩
          have hbcs : InSubtree t.nodes b cstar := by
            rcases Nat.eq_zero_or_pos (k - 1) with hz | hpos
            · rw [hz] at hcs
              simp only [pIter, Option.some_inj] at hcs
              exact Or.inl hcs
            · exact Or.inr ⟨k - 1, hpos, hcs⟩
          have hb1 : mapGet t1.nodes b = none := hres.2.2 cstar hcsmem b hbcs
          show mapGet (mapDelete t1.nodes nc.id) b = none
          rw [mapGet_mapDelete]
          split
          · rfl
          · exact hb1

/-- Claim C4: after deleteNode on a folder F returns successfully, F and
every former descendant of F (every node whose parentId chain reached F)
are gone from the in-memory node map, from the durable node store and
from the durable content store: getNode returns not-found on all of
them, and getChildren of F's former parent no longer lists F. -/
theorem cascade_delete_complete (s : StoreState) (F fuel : Nat) (nF : NodeRec)
    (s' : StoreState)
    (hnd : NodupIds s.nodes)
    (hF : mapGet s.nodes F = some nF)
    (hfo : nF.ntype = NodeType.folder)
    (hdel : deleteNodeF fuel s F = some s') :
    (∀ b, InSubtree s.nodes b F →
        getNode s' b = none ∧ mapGet s'.dbNodes b = none
        ∧ contentGet s'.dbContents b = none)
    ∧ (∀ n, n ∈ getChildren s'.nodes nF.parentId → n.id ≠ F) := by
  have hdeadnodes : ∀ b, InSubtree s.nodes b F → mapGet s'.nodes b = none :=
    fun b hb => deleteNodeF_subtree_dead fuel s F s' nF hnd hdel hF b hb
  have hdead : ∀ b, InSubtree s.nodes b F → DeadAll s' b := by
    intro b hb
    have hn := hdeadnodes b hb
    rcases deleteNodeF_dead_or fuel s F s' hdel b hn with hs | hd
    · exfalso
      have hb' : b = F ∨ ∃ k, 0 < k ∧ pIter s.nodes k b = some F := hb
      rcases hb' with rfl | ⟨k, hk, hw⟩
      · rw [hF] at hs; cases hs
      · obtain ⟨c0, n0, hc0, hn0⟩ := pIter_lookup hw hk
        simp only [pIter, Option.some_inj] at hc0
        rw [← hc0] at hn0
        rw [hn0] at hs
        cases hs
    · exact hd
  constructor
  · intro b hb
    exact hdead b hb
  · intro n hn
    have hmem := mem_getChildren_iff.mp hn
    intro he
    have hFdead : mapGet s'.nodes F = none := hdeadnodes F (Or.inl rfl)
    exact mapGet_eq_none_iff.mp hFdead n hmem.1 he

theorem cascade_delete_complete_witness :
    (NodupIds storeTree.nodes
     ∧ mapGet storeTree.nodes 1 = some (mkNode 1 none .folder "F" 0)
     ∧ (mkNode 1 none .folder "F" 0).ntype = NodeType.folder
     ∧ deleteNodeF 5 storeTree 1 = some sTreeDel)
    ∧ ((∀ b, InSubtree storeTree.nodes b 1 →
          getNode sTreeDel b = none ∧ mapGet sTreeDel.dbNodes b = none
          ∧ contentGet sTreeDel.dbContents b = none)
       ∧ (∀ n, n ∈ getChildren sTreeDel.nodes (mkNode 1 none .folder "F" 0).parentId →
            n.id ≠ 1)) :=
  ⟨⟨by decide, by decide, by decide, by decide⟩,
   cascade_delete_complete storeTree 1 5 (mkNode 1 none .folder "F" 0) sTreeDel
     (by decide) (by decide) (by decide) (by decide)⟩
